import Mathlib

/-!
# A shallow embedding of `xo/dburl` (URL-style database connection strings)

This file embeds, in Lean 4, the parts of the `xo/dburl` Go package that the
claims under scrutiny are about:

* the relevant core of Go's `net/url` package (an external dependency the
  package builds on: `url.Parse`, `url.URL.String`, percent escaping and
  unescaping, `url.Values`), translated from the Go standard library sources;
* the relevant core of Go's `path` package (`Clean`, `Dir`, `Base`, `Join`);
* the dburl scheme registry (`registerAlias`, `Register`, `Unregister` from
  `scheme.go`), with Go's pointer-shared `map[string]*Scheme` modelled as an
  index-sharing store;
* the DSN generators and filesystem resolvers from `dsn.go` (`GenPostgres`,
  `GenMySQL`, `GenSQLServer`, `GenOracle`, `GenOpaque`, `genOptions`,
  `resolveSocket`, `resolveDir`), with the filesystem probe modelled as an
  explicit oracle argument;
* `Parse`, `URL.String` and `URL.Normalize` from `dburl.go`.

Modelling conventions:

* Go strings are byte strings; they are modelled as `List Char` where each
  `Char` stands for one byte.  The model is byte-faithful for code points
  below `0x80` (every concrete input below is ASCII).
* Go's `(value, error)` returns are modelled with `Except`/`Option`; a Go
  `panic` inside the registry code is modelled as `none`.
* The filesystem (`os.Stat` inside `mode`) is modelled as an explicit
  oracle `FS : Str → Nat` returning the Go `fs.FileMode` bits of a path
  (`0` both for a stat failure and for a plain file, exactly as `mode`
  collapses them).
-/

set_option linter.unusedVariables false

abbrev Str := List Char

/-- Convert a Lean string literal to the byte-string model. -/
def str (s : String) : Str := s.toList

/-- Render a model string (for readability of results). -/
def unstr (s : Str) : String := s.asString

/-- ASCII lower-casing of one character, as Go's `strings.ToLower` acts on
the ASCII-only scheme names that ever reach it here. -/
def lowerChar (c : Char) : Char :=
  if 'A' ≤ c ∧ c ≤ 'Z' then Char.ofNat (c.toNat + 32) else c

/-- `strings.ToLower` (restricted to ASCII, see `lowerChar`). -/
def toLower (s : Str) : Str := s.map lowerChar

/-- `strings.HasPrefix`. -/
def hasPfx (s pre : Str) : Bool := pre.isPrefixOf s

/-- `strings.HasSuffix`. -/
def hasSfx (s suf : Str) : Bool := suf.isSuffixOf s

/-- `strings.TrimPrefix`. -/
def trimPfx (s pre : Str) : Str := if hasPfx s pre then s.drop pre.length else s

/-- `strings.Contains` for a single-character substring. -/
def containsChar (s : Str) (c : Char) : Bool := s.contains c

/-- `strings.IndexByte` / `strings.IndexRune`: index of the first occurrence
of `c` in `s`, or `none`. -/
def indexOfChar : Str → Char → Option Nat
  | [], _ => none
  | a :: rest, c =>
    if a = c then some 0
    else (indexOfChar rest c).map (· + 1)

/-- `strings.LastIndex` for a single-character substring. -/
def lastIndexOfChar (s : Str) (c : Char) : Option Nat :=
  (indexOfChar s.reverse c).map (fun i => s.length - 1 - i)

/-- Go slicing `s[i:j]` (with `0 ≤ i ≤ j ≤ len s`). -/
def gslice (s : Str) (i j : Nat) : Str := (s.drop i).take (j - i)

/-- `strings.Cut s sep` for a one-character separator: `(before, after?)`,
where `after? = none` when `sep` does not occur. -/
def cutChar : Str → Char → Str × Option Str
  | [], _ => ([], none)
  | a :: rest, sep =>
    if a = sep then ([], some rest)
    else
      let r := cutChar rest sep
      (a :: r.1, r.2)

/-! ## Hexadecimal helpers (net/url) -/

/-- `ishex` from net/url. -/
def ishex (c : Char) : Bool :=
  ('0' ≤ c ∧ c ≤ '9') ∨ ('a' ≤ c ∧ c ≤ 'f') ∨ ('A' ≤ c ∧ c ≤ 'F')

/-- `unhex` from net/url. -/
def unhex (c : Char) : Nat :=
  if '0' ≤ c ∧ c ≤ '9' then c.toNat - '0'.toNat
  else if 'a' ≤ c ∧ c ≤ 'f' then c.toNat - 'a'.toNat + 10
  else if 'A' ≤ c ∧ c ≤ 'F' then c.toNat - 'A'.toNat + 10
  else 0

/-- The `upperhex` digit table of net/url. -/
def upperhex (n : Nat) : Char :=
  (str "0123456789ABCDEF").getD n '0'

/-! ## Percent escaping (net/url `shouldEscape`, `escape`, `unescape`) -/

/-- The `encoding` enumeration of net/url. -/
inductive Encoding where
  | path
  | pathSegment
  | host
  | zone
  | userPassword
  | queryComponent
  | fragment
deriving DecidableEq, Repr

/-- Is `c` an unreserved alphanumeric byte? -/
def isAlnum (c : Char) : Bool :=
  ('a' ≤ c ∧ c ≤ 'z') ∨ ('A' ≤ c ∧ c ≤ 'Z') ∨ ('0' ≤ c ∧ c ≤ '9')

/-- net/url `shouldEscape`: whether byte `c` must be percent-escaped when it
appears in a URL component of kind `mode`. -/
def shouldEscape (c : Char) (mode : Encoding) : Bool :=
  if isAlnum c then false
  else if (mode = .host ∨ mode = .zone) ∧
      (c = '!' ∨ c = '$' ∨ c = '&' ∨ c = '\'' ∨ c = '(' ∨ c = ')' ∨
       c = '*' ∨ c = '+' ∨ c = ',' ∨ c = ';' ∨ c = '=' ∨ c = ':' ∨
       c = '[' ∨ c = ']' ∨ c = '<' ∨ c = '>' ∨ c = '"') then false
  else if c = '-' ∨ c = '_' ∨ c = '.' ∨ c = '~' then false
  else if c = '$' ∨ c = '&' ∨ c = '+' ∨ c = ',' ∨ c = '/' ∨ c = ':' ∨
      c = ';' ∨ c = '=' ∨ c = '?' ∨ c = '@' then
    match mode with
    | .path => c = '?'
    | .pathSegment => c = '/' ∨ c = ';' ∨ c = ',' ∨ c = '?'
    | .userPassword => c = '@' ∨ c = '/' ∨ c = '?' ∨ c = ':'
    | .queryComponent => true
    | .fragment => false
    | _ => true
  else true

/-- net/url `escape`: percent-escape every byte of `s` that `shouldEscape`
requires, turning a space into `+` in query components. -/
def escapeStr (s : Str) (mode : Encoding) : Str :=
  s.flatMap fun c =>
    if c = ' ' ∧ mode = .queryComponent then ['+']
    else if shouldEscape c mode then
      ['%', upperhex (c.toNat / 16 % 16), upperhex (c.toNat % 16)]
    else [c]

/-- Errors of the net/url model. -/
inductive UErr where
  | escapeErr (s : Str)
  | hostEscapeErr (s : Str)
  | invalidHostChar (s : Str)
  | missingScheme
  | ctlByte
  | colonInFirstSegment
  | missingBracket
  | invalidPortAfterHost (s : Str)
  | invalidUserinfo
deriving DecidableEq, Repr

deriving instance DecidableEq for Except

/-- net/url `unescape`: percent-decode `s` under `mode`, with the same error
conditions as the Go original (one scanning pass replaces Go's
count-then-copy structure; the produced string and the error cases agree). -/
def unescape : Str → Encoding → Except UErr Str
  | [], _ => .ok []
  | '%' :: rest, mode =>
    match rest with
    | h1 :: h2 :: rest2 =>
      if ishex h1 ∧ ishex h2 then
        if mode = .host ∧ unhex h1 < 8 ∧ ¬('%' :: [h1, h2] = str "%25") then
          .error (.hostEscapeErr ('%' :: [h1, h2]))
        else if mode = .zone ∧ ¬('%' :: [h1, h2] = str "%25") ∧
            ¬(Char.ofNat (unhex h1 * 16 + unhex h2) = ' ') ∧
            shouldEscape (Char.ofNat (unhex h1 * 16 + unhex h2)) .host then
          .error (.hostEscapeErr ('%' :: [h1, h2]))
        else
          (unescape rest2 mode).map fun t =>
            Char.ofNat (unhex h1 * 16 + unhex h2) :: t
      else .error (.escapeErr ('%' :: rest.take 2))
    | _ => .error (.escapeErr ('%' :: rest.take 2))
  | '+' :: rest, mode =>
    (unescape rest mode).map fun t =>
      (if mode = .queryComponent then ' ' else '+') :: t
  | c :: rest, mode =>
    if (mode = .host ∨ mode = .zone) ∧ c.toNat < 0x80 ∧ shouldEscape c mode then
      .error (.invalidHostChar [c])
    else
      (unescape rest mode).map fun t => c :: t

/-- net/url `validEncoded`: can `s` appear literally in a URL component of
kind `mode` (percent signs taken at face value)? -/
def validEncoded (s : Str) (mode : Encoding) : Bool :=
  s.all fun c =>
    if c = '!' ∨ c = '$' ∨ c = '&' ∨ c = '\'' ∨ c = '(' ∨ c = ')' ∨
        c = '*' ∨ c = '+' ∨ c = ',' ∨ c = ';' ∨ c = '=' ∨ c = ':' ∨ c = '@' then
      true
    else if c = '[' ∨ c = ']' then true
    else if c = '%' then true
    else ¬shouldEscape c mode

/-- net/url `QueryEscape`. -/
def queryEscape (s : Str) : Str := escapeStr s .queryComponent

/-- net/url `QueryUnescape`. -/
def queryUnescape (s : Str) : Except UErr Str := unescape s .queryComponent

/-! ## net/url: userinfo, host and authority parsing -/

/-- net/url `Userinfo` (with `passwordSet` distinguishing `User` from
`UserPassword`). -/
structure Userinfo where
  username : Str
  password : Str
  passwordSet : Bool
deriving DecidableEq, Repr

/-- net/url `(*Userinfo).String`. -/
def userinfoString (ui : Userinfo) : Str :=
  escapeStr ui.username .userPassword ++
    (if ui.passwordSet then ':' :: escapeStr ui.password .userPassword else [])

/-- net/url `URL` (the fields dburl touches). -/
structure GoURL where
  scheme : Str := []
  opq : Str := []
  user : Option Userinfo := none
  host : Str := []
  path : Str := []
  rawPath : Str := []
  omitHost : Bool := false
  forceQuery : Bool := false
  rawQuery : Str := []
  fragment : Str := []
  rawFragment : Str := []
deriving DecidableEq, Repr

/-- net/url `getScheme` scanning loop, carrying the original string and the
current index. -/
def getSchemeAux (orig : Str) : Str → Nat → Except UErr (Str × Str)
  | [], _ => .ok ([], orig)
  | c :: rest, i =>
    if ('a' ≤ c ∧ c ≤ 'z') ∨ ('A' ≤ c ∧ c ≤ 'Z') then
      getSchemeAux orig rest (i + 1)
    else if ('0' ≤ c ∧ c ≤ '9') ∨ c = '+' ∨ c = '-' ∨ c = '.' then
      if i = 0 then .ok ([], orig) else getSchemeAux orig rest (i + 1)
    else if c = ':' then
      if i = 0 then .error .missingScheme
      else .ok (orig.take i, orig.drop (i + 1))
    else .ok ([], orig)

/-- net/url `getScheme`. -/
def getScheme (rawURL : Str) : Except UErr (Str × Str) :=
  getSchemeAux rawURL rawURL 0

/-- net/url `validOptionalPort`. -/
def validOptionalPort : Str → Bool
  | [] => true
  | c :: digits => c = ':' ∧ digits.all fun b => '0' ≤ b ∧ b ≤ '9'

/-- net/url `validUserinfo`. -/
def validUserinfo (s : Str) : Bool :=
  s.all fun r =>
    isAlnum r ∨ r = '-' ∨ r = '.' ∨ r = '_' ∨ r = ':' ∨ r = '~' ∨ r = '!' ∨
      r = '$' ∨ r = '&' ∨ r = '\'' ∨ r = '(' ∨ r = ')' ∨ r = '*' ∨ r = '+' ∨
      r = ',' ∨ r = ';' ∨ r = '=' ∨ r = '%' ∨ r = '@'

/-- Index of the first occurrence of `pat` as a substring (`strings.Index`). -/
def indexOfSub : Str → Str → Option Nat
  | s, pat =>
    if pat.isPrefixOf s then some 0
    else match s with
      | [] => none
      | _ :: t => (indexOfSub t pat).map (· + 1)

/-- net/url `parseHost`. -/
def parseHost (host : Str) : Except UErr Str :=
  if hasPfx host (str "[") then
    match lastIndexOfChar host ']' with
    | none => .error .missingBracket
    | some i =>
      let colonPort := host.drop (i + 1)
      if ¬validOptionalPort colonPort then .error (.invalidPortAfterHost colonPort)
      else
        match indexOfSub (host.take i) (str "%25") with
        | some zone =>
          match unescape (host.take zone) .host with
          | .error e => .error e
          | .ok host1 =>
            match unescape (gslice host zone i) .zone with
            | .error e => .error e
            | .ok host2 =>
              match unescape (host.drop i) .host with
              | .error e => .error e
              | .ok host3 => .ok (host1 ++ host2 ++ host3)
        | none => unescape host .host
  else
    match lastIndexOfChar host ':' with
    | some i =>
      let colonPort := host.drop i
      if ¬validOptionalPort colonPort then .error (.invalidPortAfterHost colonPort)
      else unescape host .host
    | none => unescape host .host

/-- net/url `parseAuthority`: returns the userinfo (if any) and the host. -/
def parseAuthority (authority : Str) : Except UErr (Option Userinfo × Str) :=
  let hostPart :=
    match lastIndexOfChar authority '@' with
    | some i => parseHost (authority.drop (i + 1))
    | none => parseHost authority
  match hostPart with
  | .error e => .error e
  | .ok host =>
    match lastIndexOfChar authority '@' with
    | none => .ok (none, host)
    | some i =>
      let userinfo := authority.take i
      if ¬validUserinfo userinfo then .error .invalidUserinfo
      else if ¬containsChar userinfo ':' then
        match unescape userinfo .userPassword with
        | .error e => .error e
        | .ok username => .ok (some ⟨username, [], false⟩, host)
      else
        let (username0, rest) :=
          match cutChar userinfo ':' with
          | (b, some a) => (b, a)
          | (b, none) => (b, [])
        match unescape username0 .userPassword with
        | .error e => .error e
        | .ok username =>
          match unescape rest .userPassword with
          | .error e => .error e
          | .ok password => .ok (some ⟨username, password, true⟩, host)

/-- net/url `(*URL).setPath`. -/
def setPath (u : GoURL) (p : Str) : Except UErr GoURL :=
  match unescape p .path with
  | .error e => .error e
  | .ok path =>
    .ok { u with path, rawPath := if escapeStr path .path = p then [] else p }

/-- net/url `(*URL).setFragment`. -/
def setFragment (u : GoURL) (f : Str) : Except UErr GoURL :=
  match unescape f .fragment with
  | .error e => .error e
  | .ok frag =>
    .ok { u with fragment := frag,
                 rawFragment := if escapeStr frag .fragment = f then [] else f }

/-- net/url `(*URL).EscapedPath`. -/
def escapedPath (u : GoURL) : Str :=
  if u.rawPath ≠ [] ∧ validEncoded u.rawPath .path ∧
      unescape u.rawPath .path = .ok u.path then
    u.rawPath
  else if u.path = str "*" then str "*"
  else escapeStr u.path .path

/-- net/url `(*URL).EscapedFragment`. -/
def escapedFragment (u : GoURL) : Str :=
  if u.rawFragment ≠ [] ∧ validEncoded u.rawFragment .fragment ∧
      unescape u.rawFragment .fragment = .ok u.fragment then
    u.rawFragment
  else escapeStr u.fragment .fragment

/-! ## net/url: `Parse` -/

/-- `stringContainsCTLByte`. -/
def containsCTLByte (s : Str) : Bool :=
  s.any fun c => c.toNat < 0x20 ∨ c.toNat = 0x7f

/-- The query split at the top of net/url `parse`: returns
`(rest, rawQuery, forceQuery)`. -/
def splitQuery (rest : Str) : Str × Str × Bool :=
  if hasSfx rest (str "?") ∧ ¬containsChar (rest.take (rest.length - 1)) '?' then
    (rest.take (rest.length - 1), [], true)
  else
    match cutChar rest '?' with
    | (before, some after) => (before, after, false)
    | (before, none) => (before, [], false)

/-- The authority/path tail of net/url `parse` (with `viaRequest = false`). -/
def parseAuthorityPath (base : GoURL) (rest : Str) : Except UErr GoURL :=
  if (base.scheme ≠ [] ∨ ¬hasPfx rest (str "///")) ∧ hasPfx rest (str "//") then
    let authority0 := rest.drop 2
    let (authority, rest2) :=
      match indexOfChar authority0 '/' with
      | some i => (authority0.take i, authority0.drop i)
      | none => (authority0, ([] : Str))
    match parseAuthority authority with
    | .error e => .error e
    | .ok (user, host) => setPath { base with user, host } rest2
  else
    let base' :=
      if base.scheme ≠ [] ∧ hasPfx rest (str "/") then { base with omitHost := true }
      else base
    setPath base' rest

/-- net/url `parse` (the fragment-free part, with `viaRequest = false`). -/
def urlParseInner (rawURL : Str) : Except UErr GoURL :=
  if containsCTLByte rawURL then .error .ctlByte
  else if rawURL = str "*" then .ok { path := str "*" }
  else
    match getScheme rawURL with
    | .error e => .error e
    | .ok (sch, rest0) =>
      let scheme := toLower sch
      let (rest, rawQuery, forceQuery) := splitQuery rest0
      let base : GoURL := { scheme, rawQuery, forceQuery }
      if ¬hasPfx rest (str "/") then
        if scheme ≠ [] then .ok { base with opq := rest }
        else if containsChar (cutChar rest '/').1 ':' then .error .colonInFirstSegment
        else parseAuthorityPath base rest
      else parseAuthorityPath base rest

/-- net/url `Parse` (fragment split, then `parse`, then `setFragment`). -/
def urlParse (rawURL : Str) : Except UErr GoURL :=
  let (before, frag) := cutChar rawURL '#'
  match urlParseInner before with
  | .error e => .error e
  | .ok url =>
    match frag with
    | none => .ok url
    | some f => if f = [] then .ok url else setFragment url f

/-- net/url `splitHostPort`. -/
def splitHostPort (hostPort : Str) : Str × Str :=
  let hp :=
    match lastIndexOfChar hostPort ':' with
    | some colon =>
      if validOptionalPort (hostPort.drop colon) then
        (hostPort.take colon, hostPort.drop (colon + 1))
      else (hostPort, ([] : Str))
    | none => (hostPort, ([] : Str))
  if hasPfx hp.1 (str "[") ∧ hasSfx hp.1 (str "]") then
    (gslice hp.1 1 (hp.1.length - 1), hp.2)
  else hp

/-- net/url `(*URL).Hostname`. -/
def hostnameOf (u : GoURL) : Str := (splitHostPort u.host).1

/-- net/url `(*URL).Port`. -/
def portOf (u : GoURL) : Str := (splitHostPort u.host).2

/-! ## net/url: `Values` (query parameters) -/

/-- net/url `Values` (`map[string][]string`), as an association list whose
keys are kept unique by the operations below; map iteration order never
leaks into any result used here (keys are always sorted first). -/
abbrev Values := List (Str × List Str)

/-- `v[key] = append(v[key], value)`. -/
def valuesAdd : Values → Str → Str → Values
  | [], k, val => [(k, [val])]
  | (k', vs) :: rest, k, val =>
    if k' = k then (k', vs ++ [val]) :: rest
    else (k', vs) :: valuesAdd rest k val

/-- net/url `Values.Set`. -/
def valuesSet : Values → Str → Str → Values
  | [], k, val => [(k, [val])]
  | (k', vs) :: rest, k, val =>
    if k' = k then (k', [val]) :: rest
    else (k', vs) :: valuesSet rest k val

/-- net/url `Values.Get`-like lookup of the full value list. -/
def valuesGet (v : Values) (k : Str) : List Str :=
  match v.find? fun e => e.1 = k with
  | some e => e.2
  | none => []

/-- Split `s` at every occurrence of `sep` (`strings.Split` for one-character
separators). -/
def splitOnChar : Str → Char → List Str
  | [], _ => [[]]
  | c :: rest, sep =>
    let r := splitOnChar rest sep
    if c = sep then [] :: r
    else (c :: r.headI) :: r.tail

/-- net/url `parseQuery` as used by `(*URL).Query()`: decoding errors make
the offending pair be skipped, and the error itself is discarded. -/
def parseQueryV (query : Str) : Values :=
  (splitOnChar query '&').foldl
    (fun m key =>
      if containsChar key ';' then m
      else if key = [] then m
      else
        let kv :=
          match cutChar key '=' with
          | (b, some a) => (b, a)
          | (b, none) => (b, ([] : Str))
        match queryUnescape kv.1 with
        | .error _ => m
        | .ok k =>
          match queryUnescape kv.2 with
          | .error _ => m
          | .ok val => valuesAdd m k val)
    []

/-- `(*URL).Query()`. -/
def queryOf (u : GoURL) : Values := parseQueryV u.rawQuery

/-- Byte-wise lexicographic order on strings (the order of Go's
`slices.Sort`/`sort.Strings` on ASCII strings). -/
def strLeB : Str → Str → Bool
  | [], _ => true
  | _ :: _, [] => false
  | a :: as, b :: bs =>
    if a.toNat < b.toNat then true
    else if a.toNat = b.toNat then strLeB as bs
    else false

def strLe (a b : Str) : Prop := strLeB a b = true

instance : DecidableRel strLe := fun a b => by unfold strLe; infer_instance

/-- Sort a list of strings lexicographically. Any correct sorting algorithm
(Go uses pdqsort) produces this result when the inputs are pairwise
distinct, which holds for map keys. -/
def sortStrings (l : List Str) : List Str := l.insertionSort strLe

/-- `strings.Join`. -/
def joinStr (parts : List Str) (sep : Str) : Str := List.intercalate sep parts

/-- net/url `Values.Encode`: keys sorted, each pair percent-escaped. -/
def valuesEncode (v : Values) : Str :=
  let keys := sortStrings (v.map (·.1))
  joinStr
    (keys.flatMap fun k =>
      (valuesGet v k).map fun val => queryEscape k ++ '=' :: queryEscape val)
    (str "&")

/-! ## net/url: `(*URL).String` -/

/-- net/url `(*URL).String`. -/
def goString (u : GoURL) : Str :=
  let buf1 := if u.scheme ≠ [] then u.scheme ++ [':'] else []
  let core :=
    if u.opq ≠ [] then buf1 ++ u.opq
    else
      let buf2 :=
        if u.scheme ≠ [] ∨ u.host ≠ [] ∨ u.user.isSome then
          if u.omitHost ∧ u.host = [] ∧ u.user = none then buf1
          else
            let b :=
              if u.host ≠ [] ∨ u.path ≠ [] ∨ u.user.isSome then buf1 ++ str "//"
              else buf1
            let b :=
              match u.user with
              | some ui => b ++ userinfoString ui ++ ['@']
              | none => b
            if u.host ≠ [] then b ++ escapeStr u.host .host else b
        else buf1
      let path := escapedPath u
      let buf3 :=
        if path ≠ [] ∧ path.head? ≠ some '/' ∧ u.host ≠ [] then buf2 ++ ['/']
        else buf2
      let buf4 :=
        if buf3 = [] ∧ containsChar (cutChar path '/').1 ':' then buf3 ++ str "./"
        else buf3
      buf4 ++ path
  core ++ (if u.forceQuery ∨ u.rawQuery ≠ [] then '?' :: u.rawQuery else []) ++
    (if u.fragment ≠ [] then '#' :: escapedFragment u else [])

/-! ## Go `path` package: `Clean`, `Split`, `Dir`, `Base`, `Join` -/

/-- The backtracking step of `path.Clean`'s `..` case: starting from writer
position `w`, walk left while `w > dotdot` and the buffer byte at `w` is not
`/`; the buffer is then truncated to the returned position. -/
def truncW (out : Str) (dotdot : Nat) : Nat → Nat
  | 0 => 0
  | w + 1 =>
    if w + 1 > dotdot ∧ out.getD (w + 1) ' ' ≠ '/' then truncW out dotdot w
    else w + 1

/-- The main loop of Go `path.Clean`, processing the remaining input `r`
with the written buffer `out` and the `dotdot` barrier.  Every iteration
consumes at least one character of `r` (the `..` case two, the segment case
a whole non-empty segment), so the `r.length + 1` fuel supplied by
`pathClean` is never exhausted; the exhaustion branch returns `out` exactly
as the `r = []` loop exit does. -/
def cleanLoop (rooted : Bool) : Nat → Str → Str → Nat → Str
  | 0, _, out, _ => out
  | _ + 1, [], out, _ => out
  | fuel + 1, c :: rest, out, dotdot =>
    if c = '/' then cleanLoop rooted fuel rest out dotdot
    else if c = '.' ∧ (rest = [] ∨ rest.head? = some '/') then
      cleanLoop rooted fuel rest out dotdot
    else if c = '.' ∧ rest.head? = some '.' ∧
        (rest.tail = [] ∨ rest.tail.head? = some '/') then
      if out.length > dotdot then
        cleanLoop rooted fuel rest.tail
          (out.take (truncW out dotdot (out.length - 1))) dotdot
      else if ¬rooted then
        cleanLoop rooted fuel rest.tail
          ((if out.length > 0 then out ++ ['/'] else out) ++ str "..")
          ((if out.length > 0 then out ++ ['/'] else out) ++ str "..").length
      else cleanLoop rooted fuel rest.tail out dotdot
    else
      cleanLoop rooted fuel ((c :: rest).dropWhile (· ≠ '/'))
        ((if (rooted ∧ out.length ≠ 1) ∨ (¬rooted ∧ out.length ≠ 0) then out ++ ['/']
          else out) ++ (c :: rest).takeWhile (· ≠ '/'))
        dotdot

/-- Go `path.Clean`. -/
def pathClean (path : Str) : Str :=
  if path = [] then str "."
  else
    let rooted := path.head? = some '/'
    let out :=
      if rooted then cleanLoop rooted path.length (path.drop 1) ['/'] 1
      else cleanLoop rooted (path.length + 1) path [] 0
    if out.length = 0 then str "." else out

/-- Go `path.Split`. -/
def pathSplit (p : Str) : Str × Str :=
  match lastIndexOfChar p '/' with
  | some i => (p.take (i + 1), p.drop (i + 1))
  | none => ([], p)

/-- Go `path.Dir`. -/
def pathDir (p : Str) : Str := pathClean (pathSplit p).1

/-- Go `path.Base`. -/
def pathBase (p : Str) : Str :=
  if p = [] then str "."
  else
    let p1 := (p.reverse.dropWhile (· = '/')).reverse
    let p2 :=
      match lastIndexOfChar p1 '/' with
      | some i => p1.drop (i + 1)
      | none => p1
    if p2 = [] then str "/" else p2

/-- Go `path.Join` for two elements (the arity used in `dsn.go`). -/
def pathJoin (a b : Str) : Str :=
  if a = [] ∧ b = [] then []
  else
    let buf1 := if a ≠ [] then a else []
    let buf2 :=
      if buf1 ≠ [] ∨ b ≠ [] then (if buf1 ≠ [] then buf1 ++ ['/'] else buf1) ++ b
      else buf1
    pathClean buf2

/-! ## Filesystem oracle and the socket/directory resolvers (`dsn.go`) -/

/-- The filesystem: `os.Stat`'s result for a path, as `some` of the Go
`fs.FileMode` bits, or `none` when stat fails. -/
abbrev FS := Str → Option Nat

/-- `fs.ModeDir` (bit 31 of `fs.FileMode`). -/
def fsModeDir : Nat := 2 ^ 31

/-- `fs.ModeSocket` (bit 24 of `fs.FileMode`). -/
def fsModeSocket : Nat := 2 ^ 24

/-- `mode` from `dsn.go`: the stat mode of a path, `0` when stat fails. -/
def modeOf (fs : FS) (p : Str) : Nat := (fs p).getD 0

/-- The loop of `resolveSocket` (`dsn.go:1059`).  The loop strictly shortens
`dir` (or reaches `""`, `"/"` or `"."`) on every iteration, so the fuel
`path.length + 2` supplied by `resolveSocket` is never exhausted; the
exhaustion branch returns the same value as the loop-exit branch. -/
def resolveSocketLoop (fs : FS) (path : Str) : Nat → Str → Str → Str × Str
  | 0, _, _ => (path, [])
  | fuel + 1, dir, dbname =>
    if dir = [] ∨ dir = str "/" ∨ dir = str "." then (path, [])
    else if modeOf fs dir &&& fsModeSocket ≠ 0 then (dir, dbname)
    else resolveSocketLoop fs path fuel (pathDir dir) (pathBase dir)

/-- `resolveSocket` from `dsn.go`: resolve `path` of the form
`/path/to/socket/dbname` against the filesystem, walking from the leaf
upward and stopping at the first prefix whose mode has the socket bit. -/
def resolveSocket (fs : FS) (path : Str) : Str × Str :=
  resolveSocketLoop fs path (path.length + 2) path []

/-- The loop of `resolveDir` (`dsn.go:1072`).  Every iteration recurses on
`dir.take j` with `j` a valid index of `dir` (`lastIndexOfChar_lt_length`),
so `dir` strictly shrinks and the `path.length + 1` fuel supplied by
`resolveDir` is never exhausted; the exhaustion branch returns the same
value as the loop-exit branch. -/
def resolveDirLoop (fs : FS) (path : Str) : Nat → Str → Str × Str × Str
  | 0, _ => (path, [], [])
  | fuel + 1, dir =>
    if dir = [] ∨ dir = str "/" ∨ dir = str "." then (path, [], [])
    else
      let i? := lastIndexOfChar dir ':'
      let j? := lastIndexOfChar dir '/'
      let strip : Bool := match i?, j? with
        | some i, some j => decide (i > j)
        | some _, none => true
        | none, _ => false
      let port := if strip then dir.drop (i?.getD 0 + 1) else []
      let dir1 := if strip then dir.take (i?.getD 0) else dir
      if modeOf fs dir1 &&& fsModeDir ≠ 0 then
        (dir1, port, trimPfx (trimPfx (trimPfx path dir1) (':' :: port)) (str "/"))
      else
        match j? with
        | some j => resolveDirLoop fs path fuel (dir.take j)
        | none => (path, [], [])

/-- `resolveDir` from `dsn.go`: resolve a directory-style socket path with a
`:port` suffix. -/
def resolveDir (fs : FS) (path : Str) : Str × Str × Str :=
  resolveDirLoop fs path (path.length + 1) path

/-! ## dburl: URL type, errors, DSN option builders -/

/-- `dburl.URL` (`dburl.go:39`): the embedded `net/url.URL` plus the dburl
fields.  `Transport` is called `Proto` by the `dsn.go` generators of the
era they were cited from; the field is one and the same.  The private
`hostPortDB` cache is omitted: no generator modelled here sets it, so
`Normalize` always computes the triple (the `nil`-cache branch). -/
structure URL where
  url : GoURL
  originalScheme : Str := []
  transport : Str := []
  driver : Str := []
  goDriver : Str := []
  unaliasedDriver : Str := []
  dsn : Str := []
deriving DecidableEq, Repr

/-- The dburl error values (`dburl.go:279`), plus carriers for errors
propagated from `net/url` and a marker for the re-entry fuel of the
opaque-reconciliation step (proved unreachable below). -/
inductive Err where
  | url (e : UErr)
  | passwordDecode (e : UErr)
  | invalidDatabaseScheme
  | unknownDatabaseScheme
  | invalidTransportProtocol
  | relativePathNotSupported
  | invalidPort
  | reentered
deriving DecidableEq, Repr

/-- `genOptions` from `dsn.go:971`. -/
def genOptions (q : Values) (joiner assign sep valSep : Str)
    (skipWhenEmpty : Bool) (ignore : List Str) : Str :=
  if q.length = 0 then []
  else
    let ig := ignore.map toLower
    let keys := sortStrings (q.map (·.1))
    let opts :=
      keys.foldr
        (fun k acc =>
          if ig.contains (toLower k) then acc
          else
            let val := joinStr (valuesGet q k) valSep
            if ¬skipWhenEmpty ∨ val ≠ [] then
              (k ++ (if val ≠ [] then assign ++ val else [])) :: acc
            else acc)
        []
    if opts ≠ [] then joiner ++ joinStr opts sep else []

/-- `genOptionsODBC` from `dsn.go:1014`. -/
def genOptionsODBC (q : Values) (skipWhenEmpty : Bool) (ignore : List Str) : Str :=
  genOptions q [] (str "=") (str ";") (str ",") skipWhenEmpty ignore

/-- `genQueryOptions` from `dsn.go:1019`. -/
def genQueryOptions (q : Values) : Str :=
  if valuesEncode q ≠ [] then '?' :: valuesEncode q else []

/-! ## dburl: the DSN generators cited by the claims (`dsn.go`) -/

/-- `GenPostgres` (`dsn.go:587`). -/
def genPostgres (fs : FS) (u : URL) : Except Err (Str × Str) :=
  let q := queryOf u.url
  let host := hostnameOf u.url
  let port := portOf u.url
  let dbname := trimPfx u.url.path (str "/")
  if host = str "." then .error .relativePathNotSupported
  else
    let hpd :=
      if u.transport = str "unix" then
        let dbname1 := if host = [] then '/' :: dbname else dbname
        resolveDir fs (pathJoin host dbname1)
      else (host, port, dbname)
    let q := valuesSet q (str "host") hpd.1
    let q := valuesSet q (str "port") hpd.2.1
    let q := valuesSet q (str "dbname") hpd.2.2
    let q :=
      match u.url.user with
      | some ui =>
        valuesSet (valuesSet q (str "user") ui.username) (str "password")
          (if ui.passwordSet then ui.password else [])
      | none => q
    .ok (genOptions q [] (str "=") (str " ") (str ",") true [], [])

/-- `GenMySQL` (`dsn.go:672`). -/
def genMySQL (fs : FS) (u : URL) : Except Err (Str × Str) :=
  let host0 := hostnameOf u.url
  let port0 := portOf u.url
  let dbname0 := trimPfx u.url.path (str "/")
  let dsnUser :=
    match u.url.user with
    | some ui =>
      if ui.username ≠ [] then
        (ui.username ++ (if ui.passwordSet then ':' :: ui.password else [])) ++ ['@']
      else []
    | none => []
  let resolved :=
    if u.transport = str "unix" then
      let dbname1 := if host0 = [] then '/' :: dbname0 else dbname0
      let hd := resolveSocket fs (pathJoin host0 dbname1)
      (hd.1, ([] : Str), hd.2)
    else (host0, port0, dbname0)
  let host1 := resolved.1
  let port1 := resolved.2.1
  let dbname1 := resolved.2.2
  let host2 :=
    if u.transport ≠ str "unix" ∧ host1 = [] then str "127.0.0.1" else host1
  let port2 :=
    if u.transport ≠ str "unix" ∧ port1 = [] then str "3306" else port1
  let port3 := if port2 ≠ [] then ':' :: port2 else []
  .ok (dsnUser ++ u.transport ++ '(' :: host2 ++ port3 ++ ')' :: '/' :: dbname1 ++
    genQueryOptions (queryOf u.url), [])

/-- `GenSQLServer` (`dsn.go:619`). -/
def genSQLServer (fs : FS) (u : URL) : Except Err (Str × Str) :=
  let host := hostnameOf u.url
  let port := portOf u.url
  let dbname := trimPfx u.url.path (str "/")
  let hd :=
    match indexOfChar dbname '/' with
    | some i => (host ++ '\\' :: dbname.take i, dbname.drop (i + 1))
    | none => (host, dbname)
  let q := queryOf u.url
  let q := valuesSet q (str "Server") hd.1
  let q := valuesSet q (str "Port") port
  let q := valuesSet q (str "Database") hd.2
  let q :=
    match u.url.user with
    | some ui =>
      valuesSet (valuesSet q (str "User ID") ui.username) (str "Password")
        (if ui.passwordSet then ui.password else [])
    | none => q
  .ok (genOptionsODBC q true [], [])

/-- `GenOracle` (`dsn.go:774`). -/
def genOracle (fs : FS) (u : URL) : Except Err (Str × Str) :=
  let dsn := u.url.host ++ u.url.path
  let un :=
    match u.url.user with
    | some ui =>
      if ui.username ≠ [] then
        ui.username ++ (if ui.passwordSet then '/' :: ui.password else [])
      else []
    | none => []
  .ok (un ++ '@' :: dsn, [])

/-- `GenOpaque` (`dsn.go:792`). -/
def genOpaque (fs : FS) (u : URL) : Except Err (Str × Str) :=
  let dsn := if u.url.host ≠ [] then u.url.host ++ u.url.path else u.url.opq
  let params := valuesEncode (queryOf u.url)
  .ok (dsn ++ (if params ≠ [] then '?' :: params else []), [])

/-- `GenScheme` (`dsn.go:504`): URL-passthrough under a fixed scheme. -/
def genSchemeGen (scheme : Str) (fs : FS) (u : URL) : Except Err (Str × Str) :=
  .ok (goString { scheme, opq := u.url.opq, user := u.url.user, host := u.url.host,
                  path := u.url.path, rawPath := u.url.rawPath,
                  rawQuery := u.url.rawQuery, fragment := u.url.fragment }, [])

/-- The closed set of generator policies used by the modelled scheme table
(the "struct-stored function pointer" of the Go code, as a tag). -/
inductive GenKind where
  | postgres
  | mysql
  | sqlserver
  | oracle
  | opq
  | schemeGen (name : Str)
deriving DecidableEq, Repr

/-- Dispatch a generator tag. -/
def runGen : GenKind → FS → URL → Except Err (Str × Str)
  | .postgres => genPostgres
  | .mysql => genMySQL
  | .sqlserver => genSQLServer
  | .oracle => genOracle
  | .opq => genOpaque
  | .schemeGen name => genSchemeGen name

/-! ## dburl: scheme descriptors and transport capabilities -/

/-- Modelled from the spec: the transport capability bitmask of the released
`scheme.go` of this code era is not under `src/` (only `dburl.go`, which
reads `TransportNone`, `TransportTCP`, `TransportUDP`, `TransportUnix` and
`TransportAny` as bitmask members, is).  §4.1: "Transport is modeled as a
bitmask over {None, TCP, UDP, Unix}, with an 'Any' convenience value". -/
def transportNone : Nat := 0

def transportTCP : Nat := 1

def transportUDP : Nat := 2

def transportUnix : Nat := 4

def transportAny : Nat := 8

/-- `dburl.Scheme`: the scheme descriptor.  `driver`, `gen`, `opq`
(`Opaque`) and `aliases` are the fields of `Scheme` in `src/scheme.go`;
`transport` (the capability bitmask) and `override` are the fields the
`src/dburl.go` `Parse` reads from the era of `scheme.go` that is not under
`src/` (spec §3).  A `gen` of `none` models Go's nil `Generator`. -/
structure Scheme where
  driver : Str
  gen : Option GenKind := none
  transport : Nat := 0
  opq : Bool := false
  override : Str := []
  aliases : List Str := []
deriving DecidableEq, Repr

/-! ## dburl: the scheme map consulted by `Parse`

Modelled from the spec: the released `BaseSchemes` table of this code era is
not under `src/` (an earlier era's table is, with a different `Proto`
field).  This registry models its core entries — the five "core databases"
of §1/§4.2 with the alias sets of the spec and of `src/scheme.go`, and the
transport capabilities pinned by the spec's examples (§8: `pg:/...` unix
socket parses succeed, `sqlite+tcp://` is rejected with no transport
capability) and by the version-controlled tests (`mysql` family allows tcp,
udp and unix; `mssql` and `ora` reject any explicit transport). -/

def postgresScheme : Scheme :=
  { driver := str "postgres", gen := some .postgres, transport := transportUnix,
    aliases := [str "pg", str "postgresql", str "pgsql"] }

def mysqlScheme : Scheme :=
  { driver := str "mysql", gen := some .mysql,
    transport := transportTCP + transportUDP + transportUnix,
    aliases := [str "my", str "mariadb", str "maria", str "percona", str "aurora"] }

def sqlite3Scheme : Scheme :=
  { driver := str "sqlite3", gen := some .opq, transport := transportNone,
    opq := true, aliases := [str "sq", str "sqlite", str "file"] }

def mssqlScheme : Scheme :=
  { driver := str "mssql", gen := some .sqlserver, transport := transportNone,
    aliases := [str "ms", str "sqlserver"] }

def oraScheme : Scheme :=
  { driver := str "ora", gen := some .oracle, transport := transportNone,
    aliases := [str "or", str "oracle", str "oci8", str "oci"] }

/-- Expand scheme descriptors to the lookup map `schemeMap` (driver token
and every alias each map to the descriptor). -/
def schemeMapOf (ss : List Scheme) : List (Str × Scheme) :=
  ss.flatMap fun s => (s.driver, s) :: s.aliases.map fun a => (a, s)

/-- The scheme map used by `Parse` (see the section comment above). -/
def schemeMap : List (Str × Scheme) :=
  schemeMapOf [postgresScheme, mysqlScheme, sqlite3Scheme, mssqlScheme, oraScheme]

/-- Map lookup (`schemeMap[name]`). -/
def lookupScheme (m : List (Str × Scheme)) (name : Str) : Option Scheme :=
  (m.find? fun e => e.1 = name).map (·.2)

/-! ## dburl: `Parse` (`dburl.go:75`) -/

/-- The password pre-processing step of `Parse` (`dburl.go:78-91`): the
behaviour of `userPassRe.ReplaceAllStringFunc` for the anchored pattern
`^([^:/]*:/{2})([^:]*):(.*)@`.  The pattern matches iff the input is
`g1 ++ "://" ++ g2 ++ ":" ++ g3 ++ "@" ++ tail` with `g1` free of `:` and
`/`, `g2` free of `:`, and `g3` the greedy no-newline run ending at the
last `@` before any newline; on a match the password text `g3` is
query-escaped twice.  The `prefixRe` and default branches of the `switch`
do nothing. -/
def preprocess (s : Str) : Str :=
  match cutChar s ':' with
  | (a, some t0) =>
    if containsChar a '/' then s
    else if hasPfx t0 (str "//") then
      let t := t0.drop 2
      match cutChar t ':' with
      | (g2, some t1) =>
        let beforeNL := (cutChar t1 '\n').1
        match lastIndexOfChar beforeNL '@' with
        | some k =>
          a ++ str "://" ++ g2 ++ ':' ::
            (queryEscape (queryEscape (t1.take k)) ++ '@' :: t1.drop (k + 1))
        | none => s
      | (_, none) => s
    else s
  | (_, none) => s

/-- The double password decode of `Parse` (`dburl.go:101-113`). -/
def decodePassword (v : GoURL) : Except Err GoURL :=
  match v.user with
  | some ui =>
    if ui.passwordSet then
      match queryUnescape ui.password with
      | .error e => .error (.passwordDecode e)
      | .ok p1 =>
        match queryUnescape p1 with
        | .error e => .error (.passwordDecode e)
        | .ok p2 => .ok { v with user := some ⟨ui.username, p2, true⟩ }
    else .ok v
  | none => .ok v

/-- Does the capability bitmask permit transport `t`?  The `switch` of
`dburl.go:161-168`. -/
def transportAllowed (mask : Nat) (t : Str) : Bool :=
  (mask &&& transportAny ≠ 0 ∧ t ≠ []) ∨
    (mask &&& transportTCP ≠ 0 ∧ t = str "tcp") ∨
    (mask &&& transportUDP ≠ 0 ∧ t = str "udp") ∨
    (mask &&& transportUnix ≠ 0 ∧ t = str "unix")

/-- The transport check of `Parse` (`dburl.go:156-169`): `true` means the
check passes, `false` means `ErrInvalidTransportProtocol`. -/
def validateTransport (mask : Nat) (checkTransport : Bool) (t : Str) : Bool :=
  if checkTransport ∨ t ≠ str "tcp" then
    if mask = transportNone then false
    else transportAllowed mask t
  else true

/-- The scheme/transport split of `Parse` (`dburl.go:119-130`): build the
initial `URL` from the decomposed `v` and the (pre-processed) input text,
split `+transport` off the scheme, and report whether a transport was
explicit. -/
def splitTransport (urlstr : Str) (v : GoURL) : URL × Bool :=
  let u0 : URL :=
    { url := v, originalScheme := urlstr.take v.scheme.length,
      transport := str "tcp" }
  match indexOfChar u0.url.scheme '+' with
  | some i =>
    ({ u0 with transport := gslice urlstr (i + 1) v.scheme.length,
               url := { u0.url with scheme := u0.url.scheme.take i } }, true)
  | none => (u0, false)

/-- The opaque-forcing / unix-inference step of `Parse` (`dburl.go:149-155`):
collapse host+path into the opaque field for opaque-only schemes, else
infer the unix transport for `.` hosts and empty-host/non-empty-path
forms. -/
def applyOpaqueUnix (scheme : Scheme) (u1 : URL) : URL :=
  if scheme.opq ∧ u1.url.opq = [] then
    { u1 with url :=
      { u1.url with
        opq := u1.url.host ++ u1.url.path
        host := []
        path := []
        rawPath := [] } }
  else if u1.url.host = str "." ∨
      (u1.url.host = [] ∧ trimPfx u1.url.path (str "/") ≠ []) then
    { u1 with transport := str "unix" }
  else u1

/-- `Parse` (`dburl.go:75-181`), with the self-call for opaque
reconciliation given explicit fuel.  `Parse` itself runs with fuel 2; the
theorem for C3 proves the `.reentered` marker unreachable at that fuel,
i.e. the re-entry depth is bounded by one. -/
def parseF (fs : FS) : Nat → Str → Except Err URL
  | 0, _ => .error .reentered
  | fuel + 1, urlstr0 =>
    let urlstr := preprocess urlstr0
    match urlParse urlstr with
    | .error e => .error (.url e)
    | .ok v0 =>
      match decodePassword v0 with
      | .error e => .error e
      | .ok v =>
        if v.scheme = [] then .error .invalidDatabaseScheme
        else
          let sp := splitTransport urlstr v
          let u1 := sp.1
          let checkTransport := sp.2
          match lookupScheme schemeMap u1.url.scheme with
          | none => .error .unknownDatabaseScheme
          | some scheme =>
            if ¬scheme.opq ∧ u1.url.opq ≠ [] then
              let q := if u1.url.rawQuery ≠ [] then '?' :: u1.url.rawQuery else []
              let f := if u1.url.fragment ≠ [] then '#' :: u1.url.fragment else []
              parseF fs fuel (u1.originalScheme ++ str "://" ++ u1.url.opq ++ q ++ f)
            else
              let u2 := applyOpaqueUnix scheme u1
              if ¬validateTransport scheme.transport checkTransport u2.transport then
                .error .invalidTransportProtocol
              else
                let u3 := { u2 with driver := scheme.driver,
                                    unaliasedDriver := scheme.driver }
                let u4 :=
                  if scheme.override ≠ [] then { u3 with driver := scheme.override }
                  else u3
                match runGen (scheme.gen.getD (.schemeGen scheme.driver)) fs u4 with
                | .error e => .error e
                | .ok dg => .ok { u4 with dsn := dg.1, goDriver := dg.2 }

/-- `Parse`, `Except` form. -/
def ParseE (fs : FS) (urlstr : Str) : Except Err URL := parseF fs 2 urlstr

/-- `Parse`, with the Go return shape `(*URL, error)`. -/
def Parse (fs : FS) (urlstr : Str) : Option URL × Option Err :=
  match ParseE fs urlstr with
  | .ok u => (some u, none)
  | .error e => (none, some e)

/-- `(*URL).String` (`dburl.go:184-196`): re-serialize through a fresh
`net/url.URL` built from the listed fields (so `OmitHost`, `ForceQuery`
and `RawFragment` are dropped). -/
def uString (u : URL) : Str :=
  goString { scheme := u.originalScheme, opq := u.url.opq, user := u.url.user,
             host := u.url.host, path := u.url.path, rawPath := u.url.rawPath,
             rawQuery := u.url.rawQuery, fragment := u.url.fragment }

/-- The index kept by the `cut` loop of `Normalize` (`dburl.go:257-266`):
starting from `len(s)-1`, walk left while `i > cut` and `s[i]` is blank. -/
def cutIndexLoop (s : List Str) (cut : Nat) : Nat → Nat
  | 0 => 0
  | i + 1 =>
    if i + 1 > cut then
      (if s.getD (i + 1) [] ≠ [] then i + 1 else cutIndexLoop s cut i)
    else i + 1

/-- The five fields of `Normalize` (`dburl.go:234-256`) after blank fields
are replaced with the `empty` placeholder: driver(+transport), host, port,
database, username. -/
def normalizeFields (u : URL) (empty : Str) : List Str :=
  let s0 := u.unaliasedDriver ++
    (if u.transport ≠ str "tcp" ∧ u.transport ≠ str "unix" then '+' :: u.transport
     else [])
  let hostPortDB :=
    if u.url.opq ≠ [] then [u.url.opq, [], []]
    else [hostnameOf u.url, portOf u.url, trimPfx u.url.path (str "/")]
  let username :=
    match u.url.user with
    | some ui => ui.username
    | none => []
  (s0 :: hostPortDB ++ [username]).map fun fld => if fld = [] then empty else fld

/-- `(*URL).Normalize` (`dburl.go:233-268`).  `cut ≤ 0` is modelled by
`cut = 0` (the Go parameter is an `int` and only `cut > 0` truncates). -/
def uNormalize (u : URL) (sep empty : Str) (cut : Nat) : Str :=
  let s2 := normalizeFields u empty
  let s3 := if cut > 0 then s2.take (cutIndexLoop s2 cut (s2.length - 1)) else s2
  joinStr s3 sep

/-! ## dburl: the scheme registry (`scheme.go`)

Go's `schemeMap` is a `map[string]*Scheme`: every name (driver token or
alias) maps to a shared pointer, and `registerAlias` mutates the pointed-to
descriptor.  The model uses an indexed store: `store` holds the allocated
descriptors and `names` maps each registered name to its store index, so
"same pointer" is "same index".  A Go `panic` is modelled as `none`. -/

structure Registry where
  store : List Scheme
  names : List (Str × Nat)
deriving DecidableEq, Repr

def emptyRegistry : Registry := ⟨[], []⟩

/-- `schemeMap[name]` as an index. -/
def lookupIdx (r : Registry) (name : Str) : Option Nat :=
  (r.names.find? fun e => e.1 = name).map (·.2)

/-- `schemeMap[name]` as a descriptor. -/
def regLookup (r : Registry) (name : Str) : Option Scheme :=
  (lookupIdx r name).bind fun i => r.store.get? i

/-- `has` from `scheme.go:165`. -/
def hasStr (a : List Str) (b : Str) : Bool := a.any (· = b)

/-- In-place update of the descriptor at index `i` (a write through the
shared pointer). -/
def modifyAt (l : List Scheme) (i : Nat) (f : Scheme → Scheme) : List Scheme :=
  match l.get? i with
  | some x => l.set i (f x)
  | none => l

/-- `ss`/`sort.Sort` from `scheme.go:176-180`: aliases are sorted with
`Less i j = len(s[i]) < len(s[j])` — by length only, with no tie-break.
For slices shorter than 12 elements (every list arising here) Go's
`sort.Sort` runs plain insertion sort, which is stable, so it is modelled
by the stable insertion sort under the reflexive closure of that order. -/
def sortAliases (l : List Str) : List Str :=
  l.insertionSort fun a b => a.length ≤ b.length

/-- `registerAlias` (`scheme.go:91-113`). -/
def registerAlias (r : Registry) (name al : Str) (doSort : Bool) :
    Option Registry :=
  match lookupIdx r name with
  | none => none
  | some i =>
    match r.store.get? i with
    | none => none
    | some scheme =>
      if doSort ∧ hasStr scheme.aliases al then none
      else if (lookupIdx r al).isSome then none
      else
        let aliases1 := scheme.aliases ++ [al]
        let aliases2 := if doSort then sortAliases aliases1 else aliases1
        some { store := modifyAt r.store i fun s => { s with aliases := aliases2 },
               names := r.names ++ [(al, i)] }

/-- `Register` (`scheme.go:116-144`).  The `for _, alias := range
scheme.Aliases` loop ranges over the slice header captured at loop entry —
the supplied alias list — while each `registerAlias` call appends to the
same descriptor's alias slice through the shared pointer.  `Driver[:2]`
panics for driver tokens shorter than 2 bytes. -/
def register (r : Registry) (scheme0 : Scheme) : Option Registry :=
  let scheme :=
    if scheme0.gen = none then { scheme0 with gen := some (.schemeGen scheme0.driver) }
    else scheme0
  if (lookupIdx r scheme.driver).isSome then none
  else
    let idx := r.store.length
    let r1 : Registry :=
      { store := r.store ++ [scheme], names := r.names ++ [(scheme.driver, idx)] }
    let hasShort := scheme.aliases.any fun a => a.length = 2
    match scheme.aliases.foldlM (fun acc a => registerAlias acc scheme.driver a false) r1 with
    | none => none
    | some r2 =>
      let r3? :=
        if ¬hasShort then
          if scheme.driver.length < 2 then none
          else registerAlias r2 scheme.driver (scheme.driver.take 2) false
        else some r2
      match r3? with
      | none => none
      | some r3 =>
        some { r3 with
               store := modifyAt r3.store idx fun s =>
                 { s with aliases := sortAliases s.aliases } }

/-- `Unregister` (`scheme.go:147-157`): delete every alias of the found
descriptor and the queried name from the map; the descriptor object itself
survives (its store slot is not reclaimed). -/
def unregister (r : Registry) (name : Str) : Option Scheme × Registry :=
  match regLookup r name with
  | some scheme =>
    let removed := scheme.aliases ++ [name]
    (some scheme, { r with names := r.names.filter fun e => ¬removed.contains e.1 })
  | none => (none, r)

/-- `RegisterAlias` (`scheme.go:160-162`). -/
def registerAliasPublic (r : Registry) (name al : Str) : Option Registry :=
  registerAlias r name al true

/-- `BaseSchemes` (`src/scheme.go:54-75`), as registry input for the
registry claims (the capability values of that era's `Proto` field are
kept verbatim: `ProtoTCP|ProtoUDP|ProtoUnix = 1|2|3 = 3`; no registry
operation reads them). -/
def baseSchemesSrc : List Scheme :=
  [ { driver := str "mssql", gen := some .sqlserver, transport := 0,
      aliases := [str "sqlserver"] },
    { driver := str "mysql", gen := some .mysql, transport := 3,
      aliases := [str "mariadb", str "maria", str "percona", str "aurora"] },
    { driver := str "ora", gen := some .oracle, transport := 0,
      aliases := [str "oracle", str "oci8", str "oci"] },
    { driver := str "postgres", gen := none, transport := 0,
      aliases := [str "pg", str "postgresql", str "pgsql"] },
    { driver := str "sqlite3", gen := some .opq, transport := 0, opq := true,
      aliases := [str "sqlite", str "file"] },
    { driver := str "spanner", gen := none, transport := 0,
      aliases := [str "gs", str "google"] },
    { driver := str "avatica", gen := some (.schemeGen (str "tcp")), transport := 0,
      aliases := [str "phoenix"] },
    { driver := str "adodb", gen := some (.schemeGen (str "adodb")), transport := 0,
      aliases := [str "ado"] },
    { driver := str "clickhouse", gen := some (.schemeGen (str "http")), transport := 0,
      aliases := [str "ch"] },
    { driver := str "firebirdsql", gen := some (.schemeGen (str "firebirdsql")),
      transport := 0, aliases := [str "fb", str "firebird"] },
    { driver := str "hdb", gen := none, transport := 0,
      aliases := [str "sa", str "saphana", str "sap", str "hana"] },
    { driver := str "n1ql", gen := some (.schemeGen (str "http")), transport := 0,
      aliases := [str "couchbase"] },
    { driver := str "sqlany", gen := none, transport := 0,
      aliases := [str "sy", str "sybase", str "any"] } ]

/-- The `init()` of `scheme.go:77-85`: register every base scheme. -/
def baseRegistry? : Option Registry :=
  baseSchemesSrc.foldlM (fun r s => register r s) emptyRegistry

/-- The base registry (shown below to be successfully built). -/
def baseRegistry : Registry := baseRegistry?.getD emptyRegistry

/-! ## Filesystem fixtures -/

/-- The fake filesystem of the version-controlled tests (the `Stat` override
in `dburl_test.go`): `/var/run/postgresql` is a directory,
`/var/run/mysqld/mysqld.sock` is a socket, everything else fails to stat. -/
def testFS : FS := fun p =>
  if p = str "/var/run/postgresql" then some fsModeDir
  else if p = str "/var/run/mysqld/mysqld.sock" then some fsModeSocket
  else none

/-- A filesystem on which every stat fails. -/
def emptyFS : FS := fun _ => none

/-- A filesystem reporting `/a/b` as a socket file and nothing else. -/
def abFS : FS := fun p => if p = str "/a/b" then some fsModeSocket else none

/-- The chain of prefixes probed by `resolveSocket`: the path itself, then
`path.Dir` of it, and so on, stopping before `""`, `"/"` or `"."`. -/
def dirChain : Nat → Str → List Str
  | 0, _ => []
  | fuel + 1, dir =>
    if dir = [] ∨ dir = str "/" ∨ dir = str "." then []
    else dir :: dirChain fuel (pathDir dir)

/-- Does the filesystem report `d` as a socket file? -/
def isSock (fs : FS) (d : Str) : Bool := modeOf fs d &&& fsModeSocket ≠ 0

instance : IsTotal Str fun a b => a.length ≤ b.length :=
  ⟨fun a b => Nat.le_total _ _⟩

instance : IsTrans Str fun a b => a.length ≤ b.length :=
  ⟨fun _ _ _ => Nat.le_trans⟩

/-- Well-formedness of the modelled registry: map keys are unique (Go map
keys) and every stored index is in range. -/
def wfRegistry (r : Registry) : Prop :=
  (r.names.map Prod.fst).Nodup ∧ ∀ e ∈ r.names, e.2 < r.store.length

/-- Alias coherence: every map entry points at a stored descriptor whose
driver token and aliases all look up to that same descriptor (Go: every
`schemeMap` value pointer is reachable from its own `Driver` key and from
each of its `Aliases` keys). -/
def regCoherentB (r : Registry) : Bool :=
  r.names.all fun e =>
    match r.store.get? e.2 with
    | some sch =>
      (lookupIdx r sch.driver == some e.2) &&
        sch.aliases.all fun a => lookupIdx r a == some e.2
    | none => false

/-- Reverse coherence: every map key is its descriptor's driver token or
one of its aliases. -/
def regReverseB (r : Registry) : Bool :=
  r.names.all fun e =>
    match r.store.get? e.2 with
    | some sch => e.1 == sch.driver || sch.aliases.contains e.1
    | none => false

/-- The character classes of the net/url `getScheme` scan: a scheme token
accepted with a nonempty result starts with an ASCII letter and continues
with letters, digits, `+`, `-` or `.` — exactly the guards of
`getSchemeAux`. -/
def schemeHeadChar (c : Char) : Bool :=
  decide (('a' ≤ c ∧ c ≤ 'z') ∨ ('A' ≤ c ∧ c ≤ 'Z'))

/-- A non-head character the `getScheme` scan steps over. -/
def schemeTailChar (c : Char) : Bool :=
  decide (('a' ≤ c ∧ c ≤ 'z') ∨ ('A' ≤ c ∧ c ≤ 'Z')) ||
    decide (('0' ≤ c ∧ c ≤ '9') ∨ c = '+' ∨ c = '-' ∨ c = '.')

/-- A well-formed scheme token for `getScheme`: nonempty, letter first,
then letters, digits, `+`, `-`, `.`. -/
def schemeOKB : Str → Bool
  | [] => false
  | c :: rest => schemeHeadChar c && rest.all schemeTailChar

/-- One unfolding of `parseF`: the body of `Parse` with the
opaque-reconciliation self-call abstracted as `rec`. -/
def parseBody (fs : FS) (rec : Str → Except Err URL) (urlstr0 : Str) :
    Except Err URL :=
  let urlstr := preprocess urlstr0
  match urlParse urlstr with
  | .error e => .error (.url e)
  | .ok v0 =>
    match decodePassword v0 with
    | .error e => .error e
    | .ok v =>
      if v.scheme = [] then .error .invalidDatabaseScheme
      else
        let sp := splitTransport urlstr v
        let u1 := sp.1
        let checkTransport := sp.2
        match lookupScheme schemeMap u1.url.scheme with
        | none => .error .unknownDatabaseScheme
        | some scheme =>
          if ¬scheme.opq ∧ u1.url.opq ≠ [] then
            let q := if u1.url.rawQuery ≠ [] then '?' :: u1.url.rawQuery else []
            let f := if u1.url.fragment ≠ [] then '#' :: u1.url.fragment else []
            rec (u1.originalScheme ++ str "://" ++ u1.url.opq ++ q ++ f)
          else
            let u2 := applyOpaqueUnix scheme u1
            if ¬validateTransport scheme.transport checkTransport u2.transport then
              .error .invalidTransportProtocol
            else
              let u3 := { u2 with driver := scheme.driver,
                                  unaliasedDriver := scheme.driver }
              let u4 :=
                if scheme.override ≠ [] then { u3 with driver := scheme.override }
                else u3
              match runGen (scheme.gen.getD (.schemeGen scheme.driver)) fs u4 with
              | .error e => .error e
              | .ok dg => .ok { u4 with dsn := dg.1, goDriver := dg.2 }

set_option maxRecDepth 40000

/-- A `lastIndexOfChar` result is a valid index. -/
theorem lastIndexOfChar_lt_length (s : Str) (c : Char) (n : Nat)
    (hn : lastIndexOfChar s c = some n) : n < s.length := by
  unfold lastIndexOfChar at hn
  match hx : indexOfChar s.reverse c with
  | none => simp [hx] at hn
  | some m =>
    simp [hx] at hn
    have : s.reverse.length = s.length := s.length_reverse
    by_cases h0 : s.length = 0
    · have : s = [] := List.length_eq_zero.mp h0
      subst this; simp [indexOfChar] at hx
    · omega

/-! ## Theorems for the claims -/

/-- C5: parsing `pg:/var/run/postgresql:7777` with a filesystem reporting
`/var/run/postgresql` as a directory succeeds with resolved driver
`postgres` and DSN `host=/var/run/postgresql port=7777`; the
empty-host/non-empty-path form forces the `unix` transport, the host is
treated as a directory-style socket path and the trailing `:7777` is split
off as the port. -/
theorem c5_postgres_dir_socket :
    (ParseE testFS (str "pg:/var/run/postgresql:7777")).map
      (fun u => (u.driver, u.dsn, u.transport)) =
    .ok (str "postgres", str "host=/var/run/postgresql port=7777", str "unix") := by
  decide

/-- C4 (counterexample): with `/a/b` reported as a socket, resolving
`/a/b/c/d` stops at the prefix `/a/b` but yields the database name `c`,
not the full remainder `c/d` the claim describes — the deeper remainder
component `d` is dropped, as the generated DSN `unix(/a/b)/c` shows. -/
theorem c4_counterexample :
    resolveSocket abFS (str "/a/b/c/d") = (str "/a/b", str "c") ∧
    ¬resolveSocket abFS (str "/a/b/c/d") = (str "/a/b", str "c/d") ∧
    (ParseE abFS (str "my:/a/b/c/d")).map (fun u => u.dsn) =
      .ok (str "unix(/a/b)/c") := by
  refine ⟨by decide, by decide, by decide⟩

/-- C7 (code evaluated at the failing inputs): the double query-unescape of
the password reports the literal password `a+b` as `a b` (a reserved `+` is
not recovered exactly), and `Parse` fails outright on the very password the
code's own comment documents as the motivation for the workaround,
`A7p0@jch5Vj_+-,&=!@$%^*()`, because the second query-unescape rejects its
literal `%` at `%^*`. -/
theorem c7_password_double_decode_mangles :
    (ParseE emptyFS (str "pg://user:a+b@host/db")).map (fun u => u.url.user) =
      .ok (some ⟨str "user", str "a b", true⟩) ∧
    ¬(str "a b" = str "a+b") ∧
    ParseE emptyFS (str "pg://user:A7p0@jch5Vj_+-,&=!@$%^*()@localhost/db") =
      .error (.passwordDecode (.escapeErr (str "%^*"))) := by
  refine ⟨by decide, by decide, by decide⟩

/-- C1 (code evaluated at the failing input): `pg://user:a%2Bb@host/db`
parses to driver `postgres` with DSN `... password=a+b ...`, but re-parsing
the `String()` rendering of the result (`pg://user:a+b@host/db`, with the
`+` left unescaped in the userinfo) yields the same driver with a
different DSN, `... password=a b ...` — the round trip changes the DSN. -/
theorem c1_roundtrip_dsn_changes :
    (ParseE emptyFS (str "pg://user:a%2Bb@host/db")).map (fun u => (u.driver, u.dsn)) =
      .ok (str "postgres", str "dbname=db host=host password=a+b user=user") ∧
    ((ParseE emptyFS (str "pg://user:a%2Bb@host/db")).bind
        (fun u => ParseE emptyFS (uString u))).map (fun u => (u.driver, u.dsn)) =
      .ok (str "postgres", str "dbname=db host=host password=a b user=user") ∧
    ¬(str "dbname=db host=host password=a+b user=user" =
      str "dbname=db host=host password=a b user=user") := by
  refine ⟨by decide, by decide, by decide⟩

/-- C10 (counterexample): for the parsed URL of `pg://host/db`, separator
`:`, the non-empty placeholder `*` and `cut = 2`, `Normalize` returns the
four fields `postgres:host:*:db` — not all five fields joined
(`postgres:host:*:db:*`): the username field is dropped. -/
theorem c10_counterexample :
    (ParseE emptyFS (str "pg://host/db")).map
      (fun u => uNormalize u (str ":") (str "*") 2) =
      .ok (str "postgres:host:*:db") ∧
    ¬(str "postgres:host:*:db" =
      joinStr [str "postgres", str "host", str "*", str "db", str "*"] (str ":")) := by
  refine ⟨by decide, by decide⟩

/-- C9 (counterexample): registering a descriptor with the equal-length
aliases `["zz", "aa"]` stores the alias list `["zz", "aa", "zz", "aa"]`
(each supplied alias appended a second time by the range-while-append loop,
and the length-only sort leaving equal-length aliases in insertion order) —
not the lexicographically tie-broken `["aa", "aa", "zz", "zz"]`. -/
theorem c9_counterexample :
    ((register emptyRegistry
        { driver := str "zzz", gen := some .oracle, transport := 0, opq := false,
          override := [], aliases := [str "zz", str "aa"] }).bind
      fun r => (regLookup r (str "zzz")).map fun s => s.aliases) =
      some [str "zz", str "aa", str "zz", str "aa"] ∧
    ¬(([str "zz", str "aa", str "zz", str "aa"] : List Str) =
      [str "aa", str "aa", str "zz", str "zz"]) := by
  refine ⟨by decide, by decide⟩

/-- C8 (counterexample): `Unregister` called with the alias `pg` removes
every alias of the postgres descriptor from the map but leaves the
canonical token `postgres` registered with its stale alias list: afterwards
`postgres` still resolves to a descriptor listing `pg` among its aliases
while a lookup on `pg` finds nothing — the alias-lookup coherence invariant
is not preserved by every registry operation. -/
theorem c8_counterexample :
    baseRegistry? = some baseRegistry ∧
    ((regLookup (unregister baseRegistry (str "pg")).2 (str "postgres")).map
      fun s => hasStr s.aliases (str "pg")) = some true ∧
    regLookup (unregister baseRegistry (str "pg")).2 (str "pg") = none := by
  refine ⟨by decide, by decide, by decide⟩

/-- The `cut` loop of `Normalize` returns index 4 whenever the last field is
populated, for every `cut`. -/
theorem cutIndexLoop_four (s : List Str) (cut : Nat) (h : s.getD 4 [] ≠ []) :
    cutIndexLoop s cut 4 = 4 := by
  unfold cutIndexLoop
  by_cases hcut : 3 + 1 > cut
  · rw [if_pos hcut, if_pos h]
  · rw [if_neg hcut]

/-- C10 (amended): with a non-empty blank-field placeholder and any
`cut > 0`, `Normalize` always returns exactly the first four fields joined
(driver+transport, host, port, database) — the username field is dropped,
and no deeper truncation occurs, because the placeholder makes the last
field non-blank and the cut loop then slices `s[:4]`. -/
theorem c10_amended (u : URL) (sep empty : Str) (cut : Nat)
    (he : empty ≠ ([] : Str)) (hc : 0 < cut) :
    uNormalize u sep empty cut = joinStr ((normalizeFields u empty).take 4) sep := by
  have hlen : (normalizeFields u empty).length = 5 := by
    unfold normalizeFields
    by_cases h : u.url.opq ≠ [] <;> simp [h]
  have hget : (normalizeFields u empty).getD 4 [] ≠ [] := by
    unfold normalizeFields
    by_cases h : u.url.opq ≠ [] <;> cases hu : u.url.user <;>
      simp [h, hu, List.getD] <;> (try split) <;> simp_all
  unfold uNormalize
  simp only [hlen, hc, if_true, gt_iff_lt]
  rw [show (5 : Nat) - 1 = 3 + 1 from rfl, cutIndexLoop_four _ _ hget]

/-- C10 witness: the amended statement applied to the parsed URL of
`pg://host/db` with separator `:`, placeholder `*` and `cut = 2`. -/
theorem c10_witness :
    uNormalize ((ParseE emptyFS (str "pg://host/db")).toOption.getD { url := {} })
      (str ":") (str "*") 2 =
    joinStr ((normalizeFields
      ((ParseE emptyFS (str "pg://host/db")).toOption.getD { url := {} })
      (str "*")).take 4) (str ":") :=
  c10_amended _ _ _ _ (by decide) (by decide)

/-- C6: transport validation.  (1) The check of `dburl.go:156-169` fails
(`ErrInvalidTransportProtocol`) exactly when the transport is explicit or
differs from the default `tcp` and the scheme's capability bitmask does not
permit it.  (2) Whenever `Parse` reaches the transport check in that state,
it returns the invalid-transport error.  (3) In particular
`sqlite+tcp://` fails with it (sqlite declares no transport capability). -/
theorem c6_transport_validation :
    (∀ (mask : Nat) (checkT : Bool) (t : Str),
        validateTransport mask checkT t = false ↔
          ((checkT = true ∨ t ≠ str "tcp") ∧ transportAllowed mask t = false)) ∧
    (∀ (fs : FS) (s : Str) (v v' : GoURL) (sch : Scheme),
        urlParse (preprocess s) = .ok v →
        decodePassword v = .ok v' →
        ¬v'.scheme = [] →
        lookupScheme schemeMap (splitTransport (preprocess s) v').1.url.scheme = some sch →
        ¬(¬sch.opq ∧ (splitTransport (preprocess s) v').1.url.opq ≠ []) →
        validateTransport sch.transport (splitTransport (preprocess s) v').2
          (applyOpaqueUnix sch (splitTransport (preprocess s) v').1).transport = false →
        ParseE fs s = .error .invalidTransportProtocol) ∧
    ParseE emptyFS (str "sqlite+tcp://") = .error .invalidTransportProtocol := by
  refine ⟨?_, ?_, by decide⟩
  · intro mask checkT t
    unfold validateTransport
    have hzero : transportAllowed 0 t = false := by
      simp [transportAllowed, transportAny, transportTCP, transportUDP, transportUnix]
    by_cases hcond : checkT = true ∨ ¬t = str "tcp"
    · rw [if_pos hcond]
      by_cases hm : mask = transportNone
      · subst hm
        simp [transportNone, hzero, hcond]
      · rw [if_neg hm]
        simp [hcond]
    · rw [if_neg hcond]
      simp [hcond]
  · intro fs s v v' sch h1 h2 h3 h4 h5 h6
    unfold ParseE parseF
    simp only [h1, h2, h3, h4, h5, h6]
    simp

/-- C6 witness: the `Parse`-level statement instantiated at
`sqlite+tcp://`. -/
theorem c6_witness :
    ParseE emptyFS (str "sqlite+tcp://") = .error .invalidTransportProtocol :=
  c6_transport_validation.2.1 emptyFS (str "sqlite+tcp://")
    { scheme := str "sqlite+tcp" } { scheme := str "sqlite+tcp" } sqlite3Scheme
    (by decide) (by decide) (by decide) (by decide) (by decide) (by decide)

/-- C2: error totality.  (1) For every input, `Parse` returns either a
populated URL or a typed error, never both and never neither.  (2) Every
input that decomposes and password-decodes successfully but whose scheme
token (after the `+transport` split) is not registered yields
`ErrUnknownDatabaseScheme` and no partial result. -/
theorem c2_error_totality :
    (∀ (fs : FS) (s : Str),
        ((Parse fs s).1.isSome ∧ (Parse fs s).2 = none) ∨
        ((Parse fs s).1 = none ∧ (Parse fs s).2.isSome)) ∧
    (∀ (fs : FS) (s : Str) (v v' : GoURL),
        urlParse (preprocess s) = .ok v →
        decodePassword v = .ok v' →
        ¬v'.scheme = [] →
        lookupScheme schemeMap (splitTransport (preprocess s) v').1.url.scheme = none →
        Parse fs s = (none, some .unknownDatabaseScheme)) := by
  constructor
  · intro fs s
    unfold Parse
    cases h : ParseE fs s <;> simp
  · intro fs s v v' h1 h2 h3 h4
    unfold Parse ParseE parseF
    simp only [h1, h2, h3, h4]
    simp

/-- C2 witness: `foobar://anything` (an unregistered scheme token) returns
the unknown-scheme error and no partial result. -/
theorem c2_witness :
    Parse emptyFS (str "foobar://anything") = (none, some .unknownDatabaseScheme) :=
  c2_error_totality.2 emptyFS (str "foobar://anything")
    { scheme := str "foobar", host := str "anything" }
    { scheme := str "foobar", host := str "anything" }
    (by decide) (by decide) (by decide) (by decide)

/-- The `resolveSocket` loop, characterized declaratively over the probed
prefix chain: the result is the first chain element reported as a socket
(paired with the base name of the previous chain element, or the incoming
`dbname` when the socket is the starting path itself), and the fallback
`(path, "")` when no chain element is a socket. -/
theorem resolveSocketLoop_chain (fs : FS) (path : Str) :
    ∀ (fuel : Nat) (dir dbname : Str),
    resolveSocketLoop fs path fuel dir dbname =
      (if (dirChain fuel dir).findIdx (isSock fs) < (dirChain fuel dir).length then
         ((dirChain fuel dir).getD ((dirChain fuel dir).findIdx (isSock fs)) [],
          if (dirChain fuel dir).findIdx (isSock fs) = 0 then dbname
          else pathBase ((dirChain fuel dir).getD
            ((dirChain fuel dir).findIdx (isSock fs) - 1) []))
       else (path, [])) := by
  intro fuel
  induction fuel with
  | zero => intro dir dbname; simp [resolveSocketLoop, dirChain]
  | succ fuel ih =>
    intro dir dbname
    by_cases hg : dir = [] ∨ dir = str "/" ∨ dir = str "."
    · simp [resolveSocketLoop, dirChain, hg]
    · by_cases hsock : isSock fs dir
      · have hs' : modeOf fs dir &&& fsModeSocket ≠ 0 := by
          simpa [isSock] using hsock
        simp [resolveSocketLoop, dirChain, hg, hs', List.findIdx_cons, hsock]
      · have hs' : ¬modeOf fs dir &&& fsModeSocket ≠ 0 := by
          simpa [isSock] using hsock
        rw [show resolveSocketLoop fs path (fuel + 1) dir dbname =
              resolveSocketLoop fs path fuel (pathDir dir) (pathBase dir) by
            simp [resolveSocketLoop, hg, hs']]
        rw [ih (pathDir dir) (pathBase dir)]
        have hchain : dirChain (fuel + 1) dir = dir :: dirChain fuel (pathDir dir) := by
          simp [dirChain, hg]
        rw [hchain]
        rw [List.findIdx_cons]
        simp only [hsock, cond_false]
        set c := dirChain fuel (pathDir dir) with hc
        set k := c.findIdx (isSock fs) with hk
        by_cases hlt : k < c.length
        · rw [if_pos hlt, if_pos (show k + 1 < (dir :: c).length by
            simp only [List.length_cons]; omega)]
          simp only [List.getD_cons_succ, Nat.add_sub_cancel]
          rw [if_neg (show ¬(k + 1 = 0) by omega)]
          cases k with
          | zero => simp
          | succ k0 => simp
        · rw [if_neg hlt, if_neg (show ¬(k + 1 < (dir :: c).length) by
            simp only [List.length_cons]; omega)]

/-- C4 (amended): unix-socket resolution for the MySQL family walks the
path from the leaf upward probing each prefix's filesystem mode; if some
probed prefix is a socket, the first such prefix is the socket location and
the database name is the base name of the previous (one-level-longer)
prefix — only the first component of the remainder, deeper components being
dropped — or empty when the socket is the full path; if no prefix matches
(including when every probe fails), the full given path is the socket
location with an empty database name.  In particular
`my:/var/run/mysqld/mysqld.sock/mydb?timeout=90` with
`/var/run/mysqld/mysqld.sock` a socket generates the DSN
`unix(/var/run/mysqld/mysqld.sock)/mydb?timeout=90`. -/
theorem c4_amended :
    (∀ (fs : FS) (p : Str),
        ((dirChain (p.length + 2) p).findIdx (isSock fs) <
            (dirChain (p.length + 2) p).length →
          resolveSocket fs p =
            ((dirChain (p.length + 2) p).getD
              ((dirChain (p.length + 2) p).findIdx (isSock fs)) [],
             if (dirChain (p.length + 2) p).findIdx (isSock fs) = 0 then []
             else pathBase ((dirChain (p.length + 2) p).getD
               ((dirChain (p.length + 2) p).findIdx (isSock fs) - 1) []))) ∧
        (¬(dirChain (p.length + 2) p).findIdx (isSock fs) <
            (dirChain (p.length + 2) p).length →
          resolveSocket fs p = (p, []))) ∧
    (ParseE testFS (str "my:/var/run/mysqld/mysqld.sock/mydb?timeout=90")).map
      (fun u => u.dsn) =
      .ok (str "unix(/var/run/mysqld/mysqld.sock)/mydb?timeout=90") := by
  refine ⟨?_, by decide⟩
  intro fs p
  constructor <;> intro h <;>
    · unfold resolveSocket
      rw [resolveSocketLoop_chain]
      first
        | rw [if_pos h]
        | rw [if_neg h]

/-- C4 witness: the socket-found case of the amended statement at the
filesystem reporting `/a/b` as a socket and the path `/a/b/c/d`. -/
theorem c4_witness :
    resolveSocket abFS (str "/a/b/c/d") =
      ((dirChain ((str "/a/b/c/d").length + 2) (str "/a/b/c/d")).getD
        ((dirChain ((str "/a/b/c/d").length + 2) (str "/a/b/c/d")).findIdx
          (isSock abFS)) [],
       if (dirChain ((str "/a/b/c/d").length + 2) (str "/a/b/c/d")).findIdx
           (isSock abFS) = 0 then []
       else pathBase ((dirChain ((str "/a/b/c/d").length + 2) (str "/a/b/c/d")).getD
         ((dirChain ((str "/a/b/c/d").length + 2) (str "/a/b/c/d")).findIdx
           (isSock abFS) - 1) [])) :=
  (c4_amended.1 abFS (str "/a/b/c/d")).1 (by decide)

theorem lookupIdx_none_iff (r : Registry) (k : Str) :
    lookupIdx r k = none ↔ k ∉ r.names.map Prod.fst := by
  unfold lookupIdx
  constructor
  · intro h hk
    match hf : r.names.find? (fun e => e.1 = k) with
    | some e => simp [hf] at h
    | none =>
      rw [List.find?_eq_none] at hf
      obtain ⟨e, he, hek⟩ := List.mem_map.mp hk
      exact hf e he (by simp [hek])
  · intro hk
    match hf : r.names.find? (fun e => e.1 = k) with
    | some e =>
      have := List.find?_some hf
      have hm := List.mem_of_find?_eq_some hf
      exact absurd (List.mem_map.mpr ⟨e, hm, by simpa using this⟩) hk
    | none => simp [hf]

theorem lookupIdx_append (st : List Scheme) (names ex : List (Str × Nat)) (k : Str) :
    lookupIdx ⟨st, names ++ ex⟩ k =
      (lookupIdx ⟨st, names⟩ k).or (lookupIdx ⟨st, ex⟩ k) := by
  unfold lookupIdx
  simp only [List.find?_append]
  cases List.find? (fun e => e.1 = k) names <;> simp

theorem lookupIdx_mk (st st' : List Scheme) (names : List (Str × Nat)) (k : Str) :
    lookupIdx ⟨st, names⟩ k = lookupIdx ⟨st', names⟩ k := rfl

theorem registerAlias_some_iff (r : Registry) (name al : Str) (i : Nat) (desc : Scheme)
    (hn : lookupIdx r name = some i) (hd : r.store.get? i = some desc)
    (hfree : lookupIdx r al = none) :
    registerAlias r name al false =
      some ⟨r.store.set i { desc with aliases := desc.aliases ++ [al] },
            r.names ++ [(al, i)]⟩ := by
  have hd2 : r.store[i]? = some desc := by
    simpa [List.get?_eq_getElem?] using hd
  unfold registerAlias
  simp only [hn, hd, hfree]
  simp [modifyAt, hd2]

theorem lookupIdx_single_eq (st : List Scheme) (a : Str) (i : Nat) :
    lookupIdx ⟨st, [(a, i)]⟩ a = some i := by
  simp [lookupIdx]

theorem get?_some_lt {l : List Scheme} {i : Nat} {x : Scheme}
    (h : l.get? i = some x) : i < l.length := by
  by_contra hge
  rw [List.get?_eq_none.mpr (by omega)] at h
  exact Option.noConfusion h

theorem foldRegisterAliases (driverTok : Str) :
    ∀ (as : List Str) (r : Registry) (i : Nat) (desc : Scheme) (rEnd : Registry),
    lookupIdx r driverTok = some i →
    r.store.get? i = some desc →
    List.foldlM (fun acc a => registerAlias acc driverTok a false) r as = some rEnd →
    rEnd.store.length = r.store.length ∧
    rEnd.store.get? i = some { desc with aliases := desc.aliases ++ as } ∧
    (∀ j, j ≠ i → rEnd.store.get? j = r.store.get? j) ∧
    rEnd.names = r.names ++ as.map (fun a => (a, i)) ∧
    (∀ k v, lookupIdx r k = some v → lookupIdx rEnd k = some v) ∧
    (∀ a ∈ as, lookupIdx rEnd a = some i) ∧
    ((r.names.map Prod.fst).Nodup → (rEnd.names.map Prod.fst).Nodup) := by
  intro as
  induction as with
  | nil =>
    intro r i desc rEnd hn hd hfold
    simp only [List.foldlM_nil, pure, Option.some.injEq] at hfold
    subst hfold
    exact ⟨rfl, by simpa using hd, fun j _ => rfl, by simp, fun k v h => h,
      by simp, id⟩
  | cons a rest ih =>
    intro r i desc rEnd hn hd hfold
    rw [List.foldlM_cons] at hfold
    cases hra : registerAlias r driverTok a false with
    | none => rw [hra] at hfold; exact absurd hfold (by simp)
    | some r1 =>
      rw [hra] at hfold
      simp only [Option.bind_eq_bind, Option.some_bind] at hfold
      cases hfa : lookupIdx r a with
      | some v =>
        exfalso
        unfold registerAlias at hra
        simp [hn, hd, hfa] at hra
        cases hx : r.store[i]? <;> simp [hx] at hra
      | none =>
        have hr1 : r1 = ⟨r.store.set i { desc with aliases := desc.aliases ++ [a] },
            r.names ++ [(a, i)]⟩ := by
          have h2 := registerAlias_some_iff r driverTok a i desc hn hd hfa
          rw [hra] at h2
          exact (Option.some.injEq _ _).mp h2
        subst hr1
        have hlt : i < r.store.length := get?_some_lt hd
        have hn1 : lookupIdx ⟨r.store.set i { desc with aliases := desc.aliases ++ [a] },
            r.names ++ [(a, i)]⟩ driverTok = some i := by
          rw [lookupIdx_append]
          rw [lookupIdx_mk _ r.store _ _, hn]
          rfl
        have hd1 : (⟨r.store.set i { desc with aliases := desc.aliases ++ [a] },
            r.names ++ [(a, i)]⟩ : Registry).store.get? i =
            some { desc with aliases := desc.aliases ++ [a] } := by
          show (r.store.set i _).get? i = _
          rw [List.get?_set_eq, hd]
          rfl
        obtain ⟨ihLen, ihGet, ihGet', ihNames, ihPres, ihMem, ihNodup⟩ :=
          ih _ i { desc with aliases := desc.aliases ++ [a] } rEnd hn1 hd1 hfold
        refine ⟨?_, ?_, ?_, ?_, ?_, ?_, ?_⟩
        · rw [ihLen]; exact List.length_set _ _ _
        · rw [ihGet]; simp
        · intro j hj
          rw [ihGet' j hj]
          exact List.get?_set_ne _ _ hj.symm
        · rw [ihNames]; simp
        · intro k v hkv
          apply ihPres
          rw [lookupIdx_append, lookupIdx_mk _ r.store _ _, hkv]
          rfl
        · intro x hx
          rcases List.mem_cons.mp hx with hxa | hxr
          · subst hxa
            apply ihPres
            rw [lookupIdx_append, lookupIdx_mk _ r.store _ _, hfa]
            simp [lookupIdx]
          · exact ihMem x hxr
        · intro hnd
          apply ihNodup
          simp only [List.map_append, List.map_cons, List.map_nil]
          rw [List.nodup_append]
          refine ⟨hnd, by simp, ?_⟩
          intro x hx1 hx2
          have hxa : x = a := by simpa using hx2
          exact (lookupIdx_none_iff r a).mp hfa (hxa ▸ hx1)

theorem register_some_shape (r : Registry) (sch : Scheme) (r' : Registry)
    (h : register r sch = some r') :
    lookupIdx r' sch.driver = some r.store.length ∧
    (∃ stored : Scheme,
      r'.store.get? r.store.length = some stored ∧
      stored.driver = sch.driver ∧
      stored.aliases = sortAliases (sch.aliases ++ sch.aliases ++
        (if sch.aliases.any (fun a => a.length = 2) then []
         else [sch.driver.take 2]))) ∧
    (∀ a ∈ sch.aliases, lookupIdx r' a = some r.store.length) ∧
    (¬sch.aliases.any (fun a => a.length = 2) = true →
      lookupIdx r' (sch.driver.take 2) = some r.store.length) ∧
    (∀ k v, lookupIdx r k = some v → lookupIdx r' k = some v) ∧
    r'.store.length = r.store.length + 1 ∧
    (∀ j, j ≠ r.store.length → r'.store.get? j = r.store.get? j) ∧
    r'.names = r.names ++ (sch.driver, r.store.length) ::
      (sch.aliases ++ (if sch.aliases.any (fun a => a.length = 2) then []
        else [sch.driver.take 2])).map (fun a => (a, r.store.length)) ∧
    ((r.names.map Prod.fst).Nodup → (r'.names.map Prod.fst).Nodup) := by
  unfold register at h
  set s' := if sch.gen = none then { sch with gen := some (.schemeGen sch.driver) }
    else sch with hs'
  have hdrv : s'.driver = sch.driver := by
    rw [hs']; split <;> rfl
  have hal : s'.aliases = sch.aliases := by
    rw [hs']; split <;> rfl
  cases hfr : lookupIdx r s'.driver with
  | some v => simp [hfr] at h
  | none =>
    simp only [hfr, Option.isSome_none, Bool.false_eq_true, if_false, ite_false] at h
    set idx := r.store.length with hidx
    set r1 : Registry := ⟨r.store ++ [s'], r.names ++ [(s'.driver, idx)]⟩ with hr1
    have hn1 : lookupIdx r1 s'.driver = some idx := by
      rw [hr1, lookupIdx_append, lookupIdx_mk _ r.store _ _, hfr]
      simp [lookupIdx]
    have hd1 : r1.store.get? idx = some s' := by
      rw [hr1, hidx]
      exact List.get?_concat_length _ _
    cases hfold : List.foldlM (fun acc a => registerAlias acc s'.driver a false) r1
        s'.aliases with
    | none =>
      simp only [hfold] at h
      exact Option.noConfusion h
    | some r2 =>
      simp only [hfold] at h
      obtain ⟨fLen, fGet, fGet', fNames, fPres, fMem, fNodup⟩ :=
        foldRegisterAliases s'.driver s'.aliases r1 idx s' r2 hn1 hd1 hfold
      have hn2 : lookupIdx r2 s'.driver = some idx := fPres _ _ hn1
      have hidxlt : idx < r2.store.length := get?_some_lt fGet
      have hpresr1 : ∀ k v, lookupIdx r k = some v → lookupIdx r1 k = some v := by
        intro k v hkv
        rw [hr1, lookupIdx_append, lookupIdx_mk _ r.store _ _]
        rw [show lookupIdx ⟨r.store, r.names⟩ k = lookupIdx r k from rfl, hkv]
        rfl
      have hget'r1 : ∀ j, j ≠ idx → r1.store.get? j = r.store.get? j := by
        intro j hj
        rw [hr1]
        show (r.store ++ [s']).get? j = r.store.get? j
        by_cases hjlt : j < r.store.length
        · exact List.get?_append hjlt
        · rw [List.get?_eq_none.mpr (by simp; omega),
            List.get?_eq_none.mpr (by omega)]
      have hnodupr1 : (r.names.map Prod.fst).Nodup → (r1.names.map Prod.fst).Nodup := by
        intro hnd
        rw [hr1]
        show ((r.names ++ [(s'.driver, idx)]).map Prod.fst).Nodup
        simp only [List.map_append, List.map_cons, List.map_nil]
        rw [List.nodup_append]
        refine ⟨hnd, by simp, ?_⟩
        intro x hx1 hx2
        have hxa : x = s'.driver := by simpa using hx2
        exact (lookupIdx_none_iff r s'.driver).mp hfr (hxa ▸ hx1)
      by_cases hshort : (s'.aliases.any fun a => a.length = 2) = true
      · simp only [hshort, Bool.not_true, not_true, Bool.false_eq_true, if_false,
          ite_false, Option.some.injEq] at h
        subst h
        have hgetIdx :
            (modifyAt r2.store idx fun s => { s with aliases := sortAliases s.aliases }).get? idx =
              some { s' with aliases := sortAliases (s'.aliases ++ s'.aliases) } := by
          unfold modifyAt
          rw [fGet]
          rw [List.get?_set_eq]
          rw [fGet]
          rfl
        have hshort2 : (sch.aliases.any fun a => a.length = 2) = true := hal ▸ hshort
        refine ⟨?_, ?_, ?_, ?_, ?_, ?_, ?_, ?_, ?_⟩
        · rw [show lookupIdx { store := modifyAt r2.store idx fun s =>
              { s with aliases := sortAliases s.aliases }, names := r2.names } sch.driver
              = lookupIdx r2 sch.driver from rfl]
          exact hdrv ▸ hn2
        · exact ⟨_, hgetIdx, hdrv, by rw [hal, hshort2]; simp⟩
        · intro a ha
          rw [show lookupIdx { store := modifyAt r2.store idx fun s =>
              { s with aliases := sortAliases s.aliases }, names := r2.names } a
              = lookupIdx r2 a from rfl]
          exact fMem a (hal ▸ ha)
        · intro habs
          exact absurd hshort2 (by simpa using habs)
        · intro k v hkv
          rw [show lookupIdx { store := modifyAt r2.store idx fun s =>
              { s with aliases := sortAliases s.aliases }, names := r2.names } k
              = lookupIdx r2 k from rfl]
          exact fPres _ _ (hpresr1 _ _ hkv)
        · show (modifyAt r2.store idx fun s =>
              { s with aliases := sortAliases s.aliases }).length = idx + 1
          unfold modifyAt
          rw [fGet]
          rw [List.length_set, fLen, hr1]
          simp
        · intro j hj
          show (modifyAt r2.store idx fun s =>
              { s with aliases := sortAliases s.aliases }).get? j = r.store.get? j
          unfold modifyAt
          rw [fGet]
          rw [List.get?_set_ne _ _ (fun hh => hj hh.symm), fGet' j hj, hget'r1 j hj]
        · show r2.names = _
          rw [fNames, hr1]
          simp [hal, hdrv, hshort2, List.append_assoc]
        · intro hnd
          exact fNodup (hnodupr1 hnd)
      · have hsf : (s'.aliases.any fun a => a.length = 2) = false := by
          simpa using hshort
        have hsf2 : (sch.aliases.any fun a => a.length = 2) = false := hal ▸ hsf
        by_cases hlen : s'.driver.length < 2
        · simp [hsf, hlen] at h
        · cases hra2 : registerAlias r2 s'.driver (s'.driver.take 2) false with
          | none => simp [hsf, hlen, hra2] at h
          | some r3 =>
            simp only [hsf, hlen, hra2, Bool.not_false, not_false_eq_true, if_true,
              ite_true, Bool.false_eq_true, if_false, ite_false, Option.some.injEq] at h
            subst h
            cases hf2 : lookupIdx r2 (s'.driver.take 2) with
            | some v =>
              exfalso
              unfold registerAlias at hra2
              simp [hn2, fGet, hf2] at hra2
              cases hx : r2.store[idx]? <;> simp [hx] at hra2
            | none =>
              have hr3e := registerAlias_some_iff r2 s'.driver (s'.driver.take 2) idx
                { s' with aliases := s'.aliases ++ s'.aliases } hn2 fGet hf2
              rw [hra2] at hr3e
              have hr3 := (Option.some.injEq _ _).mp hr3e
              subst hr3
              have hget3 :
                  ((r2.store.set idx
                    { s' with aliases := s'.aliases ++ s'.aliases ++ [s'.driver.take 2] }).get? idx) =
                  some { s' with aliases := s'.aliases ++ s'.aliases ++ [s'.driver.take 2] } := by
                rw [List.get?_set_eq, fGet]
                rfl
              have hgetIdx :
                  (modifyAt (r2.store.set idx
                      { s' with aliases := s'.aliases ++ s'.aliases ++ [s'.driver.take 2] }) idx
                    fun s => { s with aliases := sortAliases s.aliases }).get? idx =
                  some { s' with
                    aliases := sortAliases (s'.aliases ++ s'.aliases ++ [s'.driver.take 2]) } := by
                unfold modifyAt
                rw [hget3]
                rw [List.get?_set_eq, hget3]
                rfl
              have hn2d : lookupIdx r2 sch.driver = some idx := by
                rw [← hdrv]; exact hn2
              have hf2d : lookupIdx r2 (sch.driver.take 2) = none := by
                rw [← hdrv]; exact hf2
              refine ⟨?_, ?_, ?_, ?_, ?_, ?_, ?_, ?_, ?_⟩
              · show lookupIdx ⟨_, r2.names ++ [(s'.driver.take 2, idx)]⟩ sch.driver = some idx
                rw [lookupIdx_append, lookupIdx_mk _ r2.store _ _]
                rw [show lookupIdx ⟨r2.store, r2.names⟩ sch.driver
                    = lookupIdx r2 sch.driver from rfl, hn2d]
                rfl
              · refine ⟨_, hgetIdx, hdrv, ?_⟩
                rw [hal, hdrv, hsf2]
                simp
              · intro a ha
                show lookupIdx ⟨_, r2.names ++ [(s'.driver.take 2, idx)]⟩ a = some idx
                rw [lookupIdx_append, lookupIdx_mk _ r2.store _ _]
                rw [show lookupIdx ⟨r2.store, r2.names⟩ a = lookupIdx r2 a from rfl,
                  fMem a (hal ▸ ha)]
                rfl
              · intro _
                show lookupIdx ⟨_, r2.names ++ [(s'.driver.take 2, idx)]⟩
                  (sch.driver.take 2) = some idx
                rw [lookupIdx_append, lookupIdx_mk _ r2.store _ _]
                rw [show lookupIdx ⟨r2.store, r2.names⟩ (sch.driver.take 2)
                    = lookupIdx r2 (sch.driver.take 2) from rfl, hf2d]
                rw [hdrv]
                exact lookupIdx_single_eq _ _ _
              · intro k v hkv
                show lookupIdx ⟨_, r2.names ++ [(s'.driver.take 2, idx)]⟩ k = some v
                rw [lookupIdx_append, lookupIdx_mk _ r2.store _ _]
                rw [show lookupIdx ⟨r2.store, r2.names⟩ k = lookupIdx r2 k from rfl,
                  fPres _ _ (hpresr1 _ _ hkv)]
                rfl
              · show (modifyAt _ idx fun s => { s with aliases := sortAliases s.aliases }).length
                  = idx + 1
                unfold modifyAt
                rw [hget3]
                rw [List.length_set, List.length_set, fLen, hr1]
                simp
              · intro j hj
                show (modifyAt _ idx fun s => { s with aliases := sortAliases s.aliases }).get? j
                  = r.store.get? j
                unfold modifyAt
                rw [hget3]
                rw [List.get?_set_ne _ _ (fun hh => hj hh.symm),
                  List.get?_set_ne _ _ (fun hh => hj hh.symm), fGet' j hj, hget'r1 j hj]
              · show r2.names ++ [(s'.driver.take 2, idx)] = _
                rw [fNames, hr1]
                simp [hal, hdrv, hsf2, List.append_assoc]
              · intro hnd
                show ((r2.names ++ [(s'.driver.take 2, idx)]).map Prod.fst).Nodup
                simp only [List.map_append, List.map_cons, List.map_nil]
                rw [List.nodup_append]
                refine ⟨fNodup (hnodupr1 hnd), by simp, ?_⟩
                intro x hx1 hx2
                have hxa : x = s'.driver.take 2 := by simpa using hx2
                exact (lookupIdx_none_iff r2 (s'.driver.take 2)).mp hf2 (hxa ▸ hx1)

theorem sortAliases_perm (l : List Str) : List.Perm (sortAliases l) l :=
  List.perm_insertionSort _ l

theorem c9_amended (r : Registry) (sch : Scheme) (r' : Registry)
    (h : register r sch = some r') :
    ∃ stored : Scheme,
      regLookup r' sch.driver = some stored ∧
      stored.aliases = sortAliases (sch.aliases ++ sch.aliases ++
        (if sch.aliases.any (fun a => a.length = 2) then []
         else [sch.driver.take 2])) ∧
      stored.aliases.Sorted (fun a b => a.length ≤ b.length) ∧
      (¬(sch.aliases.any fun a => a.length = 2) = true →
        sch.driver.take 2 ∈ stored.aliases ∧
        regLookup r' (sch.driver.take 2) = regLookup r' sch.driver) := by
  obtain ⟨hdrvLook, ⟨stored, hget, hsd, halias⟩, hmem, htake2, _, _, _, _, _⟩ :=
    register_some_shape r sch r' h
  refine ⟨stored, ?_, halias, ?_, ?_⟩
  · unfold regLookup
    rw [hdrvLook]
    simpa using hget
  · rw [halias]
    exact List.sorted_insertionSort _ _
  · intro hs
    have hsf : (sch.aliases.any fun a => a.length = 2) = false := by
      simpa using hs
    constructor
    · rw [halias]
      rw [(sortAliases_perm _).mem_iff]
      simp [hsf]
    · unfold regLookup
      rw [htake2 hs, hdrvLook]

theorem c9_witness :
    ∃ stored : Scheme,
      regLookup ((register emptyRegistry
          { driver := str "zzz", gen := some .oracle, transport := 0, opq := false,
            override := [], aliases := [str "alpha"] }).getD emptyRegistry)
          (str "zzz") = some stored ∧
      stored.aliases = sortAliases ([str "alpha"] ++ [str "alpha"] ++
        (if ([str "alpha"] : List Str).any (fun a => a.length = 2) then []
         else [(str "zzz").take 2])) ∧
      stored.aliases.Sorted (fun a b => a.length ≤ b.length) ∧
      (¬(([str "alpha"] : List Str).any fun a => a.length = 2) = true →
        (str "zzz").take 2 ∈ stored.aliases ∧
        regLookup ((register emptyRegistry
            { driver := str "zzz", gen := some .oracle, transport := 0, opq := false,
              override := [], aliases := [str "alpha"] }).getD emptyRegistry)
            ((str "zzz").take 2) =
          regLookup ((register emptyRegistry
              { driver := str "zzz", gen := some .oracle, transport := 0, opq := false,
                override := [], aliases := [str "alpha"] }).getD emptyRegistry)
            (str "zzz")) :=
  c9_amended emptyRegistry
    { driver := str "zzz", gen := some .oracle, transport := 0, opq := false,
      override := [], aliases := [str "alpha"] } _ (by decide)

theorem regCoherentB_iff (r : Registry) :
    regCoherentB r = true ↔
      ∀ e ∈ r.names, ∃ sch, r.store.get? e.2 = some sch ∧
        lookupIdx r sch.driver = some e.2 ∧
        ∀ a ∈ sch.aliases, lookupIdx r a = some e.2 := by
  unfold regCoherentB
  rw [List.all_eq_true]
  constructor
  · intro h e he
    have he2 := h e he
    cases hg : r.store.get? e.2 with
    | none => rw [hg] at he2; exact absurd he2 (by simp)
    | some sch =>
      rw [hg] at he2
      simp only [Bool.and_eq_true, beq_iff_eq, List.all_eq_true] at he2
      exact ⟨sch, rfl, he2.1, he2.2⟩
  · intro h e he
    obtain ⟨sch, hg, hd, ha⟩ := h e he
    rw [hg]
    simp only [Bool.and_eq_true, beq_iff_eq, List.all_eq_true]
    exact ⟨hd, ha⟩

theorem regReverseB_iff (r : Registry) :
    regReverseB r = true ↔
      ∀ e ∈ r.names, ∃ sch, r.store.get? e.2 = some sch ∧
        (e.1 = sch.driver ∨ e.1 ∈ sch.aliases) := by
  unfold regReverseB
  rw [List.all_eq_true]
  constructor
  · intro h e he
    have he2 := h e he
    cases hg : r.store.get? e.2 with
    | none => rw [hg] at he2; exact absurd he2 (by simp)
    | some sch =>
      rw [hg] at he2
      simp only [Bool.or_eq_true, beq_iff_eq] at he2
      refine ⟨sch, rfl, ?_⟩
      rcases he2 with h1 | h2
      · exact Or.inl h1
      · exact Or.inr (by simpa using h2)
  · intro h e he
    obtain ⟨sch, hg, hd⟩ := h e he
    rw [hg]
    simp only [Bool.or_eq_true, beq_iff_eq]
    rcases hd with h1 | h2
    · exact Or.inl h1
    · exact Or.inr (by simpa using h2)

theorem find?_filter_of_imp {α : Type} (p q : α → Bool) (l : List α)
    (himp : ∀ e, p e = true → q e = true) :
    List.find? p (l.filter q) = List.find? p l := by
  induction l with
  | nil => rfl
  | cons a t ih =>
    by_cases hq : q a = true
    · rw [List.filter_cons_of_pos hq]
      by_cases hp : p a = true
      · rw [List.find?_cons_of_pos _ hp, List.find?_cons_of_pos _ hp]
      · rw [List.find?_cons_of_neg _ (by simpa using hp),
          List.find?_cons_of_neg _ (by simpa using hp)]
        exact ih
    · have hp : ¬p a = true := fun hpa => hq (himp a hpa)
      rw [List.filter_cons_of_neg (by simpa using hq),
        List.find?_cons_of_neg _ (by simpa using hp)]
      exact ih

theorem lookupIdx_filter (r : Registry) (removed : List Str) (k : Str) :
    lookupIdx ⟨r.store, r.names.filter fun e => ¬removed.contains e.1⟩ k =
      if removed.contains k then none else lookupIdx r k := by
  by_cases hrem : removed.contains k = true
  · rw [if_pos hrem]
    unfold lookupIdx
    rw [List.find?_eq_none.mpr]
    · rfl
    · intro e he hp
      have hk : e.1 = k := by simpa using hp
      have hq := (List.mem_filter.mp he).2
      rw [hk] at hq
      have hq2 : k ∉ removed := by simpa using hq
      exact hq2 (by simpa using hrem)
  · rw [if_neg hrem]
    unfold lookupIdx
    rw [find?_filter_of_imp]
    intro e hp
    have hk : e.1 = k := by simpa using hp
    rw [hk]
    simpa using hrem

theorem lookupIdx_mem_entry (r : Registry) (k : Str) (i : Nat)
    (h : lookupIdx r k = some i) : (k, i) ∈ r.names := by
  unfold lookupIdx at h
  cases hf : r.names.find? (fun e => e.1 = k) with
  | none => rw [hf] at h; exact Option.noConfusion h
  | some e =>
    rw [hf] at h
    have he := List.mem_of_find?_eq_some hf
    have hk : e.1 = k := by simpa using List.find?_some hf
    have hi : e.2 = i := by simpa using h
    have : e = (k, i) := Prod.ext hk hi
    rw [← this]
    exact he

theorem registerAliasPublic_some_shape (r : Registry) (name al : Str) (r' : Registry)
    (h : registerAliasPublic r name al = some r') :
    ∃ i desc, lookupIdx r name = some i ∧ r.store.get? i = some desc ∧
      hasStr desc.aliases al = false ∧ lookupIdx r al = none ∧
      r' = ⟨r.store.set i { desc with aliases := sortAliases (desc.aliases ++ [al]) },
            r.names ++ [(al, i)]⟩ := by
  unfold registerAliasPublic registerAlias at h
  cases hn : lookupIdx r name with
  | none => simp only [hn] at h; exact Option.noConfusion h
  | some i =>
    simp only [hn] at h
    cases hg : r.store.get? i with
    | none => simp only [hg] at h; exact Option.noConfusion h
    | some desc =>
      simp only [hg] at h
      cases hhas : hasStr desc.aliases al with
      | true => simp [hhas] at h
      | false =>
        cases hfree : lookupIdx r al with
        | some v => simp [hhas, hfree] at h
        | none =>
          have hg2 : r.store[i]? = some desc := by
            simpa [List.get?_eq_getElem?] using hg
          simp only [hhas, hfree, true_and, and_false, Bool.false_eq_true,
            if_false, ite_false, Option.isSome_none, if_true, ite_true,
            Option.some.injEq] at h
          refine ⟨i, desc, rfl, hg, hhas, rfl, ?_⟩
          rw [← h]
          simp [modifyAt, hg, hg2]

theorem coherent_lookup_agree (r : Registry) (hcoh : regCoherentB r = true)
    (k : Str) (sch : Scheme) (h : regLookup r k = some sch) :
    regLookup r sch.driver = some sch ∧
      ∀ a ∈ sch.aliases, regLookup r a = some sch := by
  unfold regLookup at h
  cases hi : lookupIdx r k with
  | none => rw [hi] at h; exact Option.noConfusion h
  | some i =>
    rw [hi] at h
    simp only [Option.some_bind] at h
    have hmem := lookupIdx_mem_entry r k i hi
    obtain ⟨sch', hg', hd', ha'⟩ := (regCoherentB_iff r).mp hcoh (k, i) hmem
    have hss : sch' = sch := by
      rw [show ((k, i) : Str × Nat).2 = i from rfl] at hg'
      rw [hg'] at h
      exact Option.some.inj h
    subst hss
    rw [show ((k, i) : Str × Nat).2 = i from rfl] at hg' hd' ha'
    constructor
    · unfold regLookup
      rw [hd']
      simpa using hg'
    · intro a ha
      unfold regLookup
      rw [ha' a ha]
      simpa using hg'

theorem setSnoc_preserves (r : Registry) (i : Nat) (desc desc' : Scheme) (al : Str)
    (hg : r.store.get? i = some desc)
    (hfree : lookupIdx r al = none)
    (hdd : desc'.driver = desc.driver)
    (hdm : ∀ a, a ∈ desc'.aliases ↔ (a ∈ desc.aliases ∨ a = al))
    (hwf : wfRegistry r) (hcoh : regCoherentB r = true) (hrev : regReverseB r = true)
    (hni : lookupIdx r desc.driver = some i)
    (hai : ∀ a ∈ desc.aliases, lookupIdx r a = some i) :
    wfRegistry ⟨r.store.set i desc', r.names ++ [(al, i)]⟩ ∧
    regCoherentB ⟨r.store.set i desc', r.names ++ [(al, i)]⟩ = true ∧
    regReverseB ⟨r.store.set i desc', r.names ++ [(al, i)]⟩ = true := by
  have hilt : i < r.store.length := get?_some_lt hg
  have hgetI : (r.store.set i desc').get? i = some desc' := by
    rw [List.get?_set_eq, hg]
    rfl
  have hgetJ : ∀ j, j ≠ i → (r.store.set i desc').get? j = r.store.get? j := by
    intro j hj
    exact List.get?_set_ne _ _ (fun hh => hj hh.symm)
  have hpres : ∀ k v, lookupIdx r k = some v →
      lookupIdx ⟨r.store.set i desc', r.names ++ [(al, i)]⟩ k = some v := by
    intro k v hkv
    rw [lookupIdx_append, lookupIdx_mk _ r.store _ _]
    rw [show lookupIdx ⟨r.store, r.names⟩ k = lookupIdx r k from rfl, hkv]
    rfl
  have halook : lookupIdx ⟨r.store.set i desc', r.names ++ [(al, i)]⟩ al = some i := by
    rw [lookupIdx_append, lookupIdx_mk _ r.store _ _]
    rw [show lookupIdx ⟨r.store, r.names⟩ al = lookupIdx r al from rfl, hfree]
    exact lookupIdx_single_eq _ _ _
  have hmem' : ∀ e ∈ (⟨r.store.set i desc', r.names ++ [(al, i)]⟩ : Registry).names,
      e ∈ r.names ∨ e = (al, i) := by
    intro e he
    rcases List.mem_append.mp he with h1 | h2
    · exact Or.inl h1
    · exact Or.inr (by simpa using h2)
  have hcohOld := (regCoherentB_iff r).mp hcoh
  have hrevOld := (regReverseB_iff r).mp hrev
  have hIdrv : lookupIdx ⟨r.store.set i desc', r.names ++ [(al, i)]⟩ desc'.driver
      = some i := by
    rw [hdd]
    exact hpres _ _ hni
  have hImem : ∀ a ∈ desc'.aliases,
      lookupIdx ⟨r.store.set i desc', r.names ++ [(al, i)]⟩ a = some i := by
    intro a ha
    rcases (hdm a).mp ha with h1 | h2
    · exact hpres _ _ (hai a h1)
    · subst h2
      exact halook
  refine ⟨⟨?_, ?_⟩, ?_, ?_⟩
  · show ((r.names ++ [(al, i)]).map Prod.fst).Nodup
    simp only [List.map_append, List.map_cons, List.map_nil]
    rw [List.nodup_append]
    refine ⟨hwf.1, by simp, ?_⟩
    intro x hx1 hx2
    have hxa : x = al := by simpa using hx2
    exact (lookupIdx_none_iff r al).mp hfree (hxa ▸ hx1)
  · intro e he
    show e.2 < (r.store.set i desc').length
    rw [List.length_set]
    rcases hmem' e he with h1 | h2
    · exact hwf.2 e h1
    · rw [h2]
      exact hilt
  · rw [regCoherentB_iff]
    intro e he
    rcases hmem' e he with h1 | h2
    · by_cases hei : e.2 = i
      · refine ⟨desc', ?_, ?_, ?_⟩
        · show (r.store.set i desc').get? e.2 = some desc'
          rw [hei]
          exact hgetI
        · rw [hei]
          exact hIdrv
        · intro a ha
          rw [hei]
          exact hImem a ha
      · obtain ⟨schE, hgE, hdE, haE⟩ := hcohOld e h1
        exact ⟨schE, by rw [show (⟨r.store.set i desc', r.names ++ [(al, i)]⟩ :
            Registry).store.get? e.2 = (r.store.set i desc').get? e.2 from rfl,
            hgetJ e.2 hei]; exact hgE,
          hpres _ _ hdE, fun a ha => hpres _ _ (haE a ha)⟩
    · rw [h2]
      refine ⟨desc', ?_, hIdrv, hImem⟩
      exact hgetI
  · rw [regReverseB_iff]
    intro e he
    rcases hmem' e he with h1 | h2
    · obtain ⟨schE, hgE, hor⟩ := hrevOld e h1
      by_cases hei : e.2 = i
      · have hse : schE = desc := by
          rw [hei, hg] at hgE
          exact (Option.some.inj hgE).symm
        refine ⟨desc', ?_, ?_⟩
        · show (r.store.set i desc').get? e.2 = some desc'
          rw [hei]
          exact hgetI
        · rcases hor with hd1 | ha1
          · exact Or.inl (by rw [hd1, hse, hdd])
          · exact Or.inr ((hdm e.1).mpr (Or.inl (hse ▸ ha1)))
      · refine ⟨schE, ?_, hor⟩
        show (r.store.set i desc').get? e.2 = some schE
        rw [hgetJ e.2 hei]
        exact hgE
    · rw [h2]
      exact ⟨desc', hgetI, Or.inr ((hdm al).mpr (Or.inr rfl))⟩

theorem registerAliasPublic_preserves (r : Registry) (name al : Str) (r' : Registry)
    (hwf : wfRegistry r) (hcoh : regCoherentB r = true) (hrev : regReverseB r = true)
    (h : registerAliasPublic r name al = some r') :
    wfRegistry r' ∧ regCoherentB r' = true ∧ regReverseB r' = true := by
  obtain ⟨i, desc, hn, hg, hhas, hfree, hr'⟩ :=
    registerAliasPublic_some_shape r name al r' h
  have hnameMem := lookupIdx_mem_entry r name i hn
  obtain ⟨schN, hgN, hdN, haN⟩ := (regCoherentB_iff r).mp hcoh (name, i) hnameMem
  have hgN2 : r.store.get? i = some schN := hgN
  have hschN : schN = desc := by
    rw [hg] at hgN2
    exact (Option.some.inj hgN2).symm
  subst hschN
  have hni : lookupIdx r schN.driver = some i := hdN
  have hai : ∀ a ∈ schN.aliases, lookupIdx r a = some i := haN
  rw [hr']
  exact setSnoc_preserves r i schN
    { schN with aliases := sortAliases (schN.aliases ++ [al]) } al hg hfree rfl
    (by
      intro a
      show a ∈ sortAliases (schN.aliases ++ [al]) ↔ _
      rw [(sortAliases_perm _).mem_iff]
      simp)
    hwf hcoh hrev hni hai

theorem register_preserves (r : Registry) (sch : Scheme) (r' : Registry)
    (hwf : wfRegistry r) (hcoh : regCoherentB r = true) (hrev : regReverseB r = true)
    (h : register r sch = some r') :
    wfRegistry r' ∧ regCoherentB r' = true ∧ regReverseB r' = true := by
  obtain ⟨hdrvLook, ⟨stored, hget, hsd, halias⟩, hmem, htake2, hpres, hlen, hget',
    hnames, hnodup⟩ := register_some_shape r sch r' h
  have hmemNames : ∀ e ∈ r'.names, e ∈ r.names ∨ e.2 = r.store.length ∧
      (e.1 = sch.driver ∨ e.1 ∈ sch.aliases ++
        (if sch.aliases.any (fun a => a.length = 2) then []
         else [sch.driver.take 2])) := by
    intro e he
    rw [hnames] at he
    rcases List.mem_append.mp he with h1 | h2
    · exact Or.inl h1
    · rcases List.mem_cons.mp h2 with h3 | h4
      · rw [h3]
        exact Or.inr ⟨rfl, Or.inl rfl⟩
      · obtain ⟨a, ha, hae⟩ := List.mem_map.mp h4
        rw [← hae]
        exact Or.inr ⟨rfl, Or.inr ha⟩
  have hstoredAlias : ∀ a ∈ stored.aliases, lookupIdx r' a = some r.store.length := by
    intro a ha
    rw [halias, (sortAliases_perm _).mem_iff] at ha
    rcases List.mem_append.mp ha with h1 | h2
    · rcases List.mem_append.mp h1 with h3 | h4
      · exact hmem a h3
      · exact hmem a h4
    · by_cases hshort : (sch.aliases.any fun a => a.length = 2) = true
      · rw [if_pos hshort] at h2
        exact absurd h2 (List.not_mem_nil a)
      · rw [if_neg hshort] at h2
        have haa : a = sch.driver.take 2 := by simpa using h2
        rw [haa]
        exact htake2 (by simpa using hshort)
  have hIcoh : ∀ e2, e2 = r.store.length →
      ∃ schE, r'.store.get? e2 = some schE ∧
        lookupIdx r' schE.driver = some e2 ∧
        ∀ a ∈ schE.aliases, lookupIdx r' a = some e2 := by
    intro e2 he2
    subst he2
    refine ⟨stored, hget, ?_, ?_⟩
    · rw [hsd]
      exact hdrvLook
    · exact hstoredAlias
  refine ⟨⟨hnodup hwf.1, ?_⟩, ?_, ?_⟩
  · intro e he
    rw [hlen]
    rcases hmemNames e he with h1 | h2
    · have := hwf.2 e h1
      omega
    · omega
  · rw [regCoherentB_iff]
    intro e he
    rcases hmemNames e he with h1 | h2
    · have helt : e.2 < r.store.length := hwf.2 e h1
      obtain ⟨schE, hgE, hdE, haE⟩ := (regCoherentB_iff r).mp hcoh e h1
      refine ⟨schE, ?_, hpres _ _ hdE, fun a ha => hpres _ _ (haE a ha)⟩
      rw [hget' e.2 (by omega)]
      exact hgE
    · exact hIcoh e.2 h2.1
  · rw [regReverseB_iff]
    intro e he
    rcases hmemNames e he with h1 | h2
    · have helt : e.2 < r.store.length := hwf.2 e h1
      obtain ⟨schE, hgE, hor⟩ := (regReverseB_iff r).mp hrev e h1
      refine ⟨schE, ?_, hor⟩
      rw [hget' e.2 (by omega)]
      exact hgE
    · refine ⟨stored, ?_, ?_⟩
      · rw [h2.1]
        exact hget
      · rcases h2.2 with hd1 | ha1
        · exact Or.inl (by rw [hd1, hsd])
        · refine Or.inr ?_
          rw [halias, (sortAliases_perm _).mem_iff]
          rcases List.mem_append.mp ha1 with h3 | h4
          · exact List.mem_append.mpr (Or.inl (List.mem_append.mpr (Or.inl h3)))
          · exact List.mem_append.mpr (Or.inr h4)

theorem unregister_driver_preserves (r : Registry) (name : Str) (sch : Scheme)
    (hwf : wfRegistry r) (hcoh : regCoherentB r = true) (hrev : regReverseB r = true)
    (hl : regLookup r name = some sch) (hdn : sch.driver = name) :
    wfRegistry (unregister r name).2 ∧
    regCoherentB (unregister r name).2 = true ∧
    regReverseB (unregister r name).2 = true := by
  have hu : (unregister r name).2 =
      ⟨r.store, r.names.filter fun e => ¬(sch.aliases ++ [name]).contains e.1⟩ := by
    unfold unregister
    simp only [hl]
  obtain ⟨i, hi, hgi⟩ : ∃ i, lookupIdx r name = some i ∧ r.store.get? i = some sch := by
    unfold regLookup at hl
    cases hn : lookupIdx r name with
    | none => rw [hn] at hl; exact Option.noConfusion hl
    | some i =>
      rw [hn] at hl
      simp only [Option.some_bind] at hl
      exact ⟨i, rfl, hl⟩
  obtain ⟨schN, hgN, hdN, haN⟩ :=
    (regCoherentB_iff r).mp hcoh (name, i) (lookupIdx_mem_entry r name i hi)
  have hgN2 : r.store.get? i = some schN := hgN
  have hschN : schN = sch := by
    rw [hgi] at hgN2
    exact (Option.some.inj hgN2).symm
  subst hschN
  have hkey : ∀ k ∈ schN.aliases ++ [name], lookupIdx r k = some i := by
    intro k hk
    rcases List.mem_append.mp hk with h1 | h2
    · exact haN k h1
    · have hkn : k = name := by simpa using h2
      rw [hkn]
      exact hi
  have hrevi : ∀ e ∈ r.names, e.2 = i → e.1 ∈ schN.aliases ++ [name] := by
    intro e he hei
    obtain ⟨schE, hgE, hor⟩ := (regReverseB_iff r).mp hrev e he
    have hse : schE = schN := by
      rw [hei, hgi] at hgE
      exact (Option.some.inj hgE).symm
    subst hse
    rcases hor with h1 | h2
    · rw [h1, hdn]
      exact List.mem_append.mpr (Or.inr (by simp))
    · exact List.mem_append.mpr (Or.inl h2)
  rw [hu]
  have hmemF : ∀ e ∈ (⟨r.store,
      r.names.filter fun e => ¬(schN.aliases ++ [name]).contains e.1⟩ : Registry).names,
      e ∈ r.names ∧ e.1 ∉ schN.aliases ++ [name] := by
    intro e he
    have h2 := List.mem_filter.mp he
    exact ⟨h2.1, by simpa using h2.2⟩
  have hlookF : ∀ k, k ∉ schN.aliases ++ [name] →
      lookupIdx ⟨r.store,
        r.names.filter fun e => ¬(schN.aliases ++ [name]).contains e.1⟩ k =
        lookupIdx r k := by
    intro k hk
    rw [lookupIdx_filter]
    rw [if_neg]
    simp only [List.contains_eq_any_beq]
    intro hc
    apply hk
    have := List.any_eq_true.mp hc
    obtain ⟨x, hx1, hx2⟩ := this
    have : k = x := by simpa using hx2
    rw [this]
    exact hx1
  refine ⟨⟨?_, ?_⟩, ?_, ?_⟩
  · show ((List.filter _ r.names).map Prod.fst).Nodup
    have hsub : List.Sublist
        (r.names.filter fun e => ¬(schN.aliases ++ [name]).contains e.1)
        r.names := List.filter_sublist _
    exact hwf.1.sublist (hsub.map Prod.fst)
  · intro e he
    exact hwf.2 e (hmemF e he).1
  · rw [regCoherentB_iff]
    intro e he
    obtain ⟨hemem, hnotrem⟩ := hmemF e he
    have hei : e.2 ≠ i := fun hh => hnotrem (hrevi e hemem hh)
    obtain ⟨schE, hgE, hdE, haE⟩ := (regCoherentB_iff r).mp hcoh e hemem
    have hdrvnot : schE.driver ∉ schN.aliases ++ [name] := by
      intro hmem2
      have h5 := hkey _ hmem2
      rw [hdE] at h5
      exact hei (Option.some.inj h5)
    refine ⟨schE, hgE, ?_, ?_⟩
    · rw [hlookF _ hdrvnot]
      exact hdE
    · intro a ha
      have hanot : a ∉ schN.aliases ++ [name] := by
        intro hmem2
        have h5 := hkey _ hmem2
        rw [haE a ha] at h5
        exact hei (Option.some.inj h5)
      rw [hlookF _ hanot]
      exact haE a ha
  · rw [regReverseB_iff]
    intro e he
    obtain ⟨hemem, _⟩ := hmemF e he
    obtain ⟨schE, hgE, hor⟩ := (regReverseB_iff r).mp hrev e hemem
    exact ⟨schE, hgE, hor⟩

/-- C8 (amended): whenever the registry is alias-coherent, looking up any
registered key — canonical driver token or alias — returns the descriptor
that its own driver token resolves to, and every alias of that descriptor
resolves to it as well; this coherence (together with key uniqueness,
index boundedness and reverse coherence) is preserved by `Register`, by
`RegisterAlias`, and by `Unregister` when it is passed the canonical
driver token.  (`Unregister` passed an alias breaks it — see the
counterexample.) -/
theorem c8_amended :
    (∀ r k sch, regCoherentB r = true → regLookup r k = some sch →
      regLookup r sch.driver = some sch ∧
        ∀ a ∈ sch.aliases, regLookup r a = some sch) ∧
    (∀ r sch r', wfRegistry r → regCoherentB r = true → regReverseB r = true →
      register r sch = some r' →
      wfRegistry r' ∧ regCoherentB r' = true ∧ regReverseB r' = true) ∧
    (∀ r name al r', wfRegistry r → regCoherentB r = true → regReverseB r = true →
      registerAliasPublic r name al = some r' →
      wfRegistry r' ∧ regCoherentB r' = true ∧ regReverseB r' = true) ∧
    (∀ r name sch, wfRegistry r → regCoherentB r = true → regReverseB r = true →
      regLookup r name = some sch → sch.driver = name →
      wfRegistry (unregister r name).2 ∧
        regCoherentB (unregister r name).2 = true ∧
        regReverseB (unregister r name).2 = true) :=
  ⟨fun r k sch hc hl => coherent_lookup_agree r hc k sch hl,
   fun r sch r' hw hc hv h => register_preserves r sch r' hw hc hv h,
   fun r name al r' hw hc hv h => registerAliasPublic_preserves r name al r' hw hc hv h,
   fun r name sch hw hc hv hl hd => unregister_driver_preserves r name sch hw hc hv hl hd⟩

/-- C8 witness: registering `abc` (no supplied aliases; the two-character
alias `ab` is added automatically) into the empty registry preserves
well-formedness, alias coherence and reverse coherence. -/
theorem c8_witness :
    wfRegistry ((register emptyRegistry
        { driver := str "abc" }).getD emptyRegistry) ∧
    regCoherentB ((register emptyRegistry
        { driver := str "abc" }).getD emptyRegistry) = true ∧
    regReverseB ((register emptyRegistry
        { driver := str "abc" }).getD emptyRegistry) = true :=
  c8_amended.2.1 emptyRegistry { driver := str "abc" }
    ((register emptyRegistry { driver := str "abc" }).getD emptyRegistry)
    (by unfold wfRegistry; exact ⟨by decide, by decide⟩)
    (by decide) (by decide) (by decide)

theorem schemeOKB_all {X : Str} (h : schemeOKB X = true) :
    X.all schemeTailChar = true := by
  cases X with
  | nil => exact absurd h (by decide)
  | cons c rest =>
    unfold schemeOKB at h
    rw [Bool.and_eq_true] at h
    rw [List.all_cons, Bool.and_eq_true]
    refine ⟨?_, h.2⟩
    unfold schemeHeadChar at h
    unfold schemeTailChar
    rw [Bool.or_eq_true]
    exact Or.inl h.1

theorem schemeOKB_ne_nil {X : Str} (h : schemeOKB X = true) : X ≠ [] := by
  intro he
  rw [he] at h
  exact absurd h (by decide)

theorem schemeOKB_not_mem {X : Str} (h : schemeOKB X = true) {c : Char}
    (hc : schemeTailChar c = false) : c ∉ X := by
  intro hmem
  have := List.all_eq_true.mp (schemeOKB_all h) c hmem
  rw [hc] at this
  exact Bool.noConfusion this

theorem cutChar_cons_of_ne (a : Char) (rest : Str) (c : Char) (h : a ≠ c) :
    cutChar (a :: rest) c = (a :: (cutChar rest c).1, (cutChar rest c).2) := by
  simp only [cutChar]
  rw [if_neg h]

theorem cutChar_cons_self (w : Str) (c : Char) :
    cutChar (c :: w) c = ([], some w) := by
  simp only [cutChar]
  simp

theorem cutChar_append (A w : Str) (c : Char) (h : c ∉ A) :
    cutChar (A ++ w) c = (A ++ (cutChar w c).1, (cutChar w c).2) := by
  induction A with
  | nil => simp [Prod.mk.eta]
  | cons a A ih =>
    have ha : a ≠ c := fun he => h (he ▸ List.mem_cons_self a A)
    have hA : c ∉ A := fun hm => h (List.mem_cons_of_mem a hm)
    show cutChar (a :: (A ++ w)) c = _
    rw [cutChar_cons_of_ne a (A ++ w) c ha, ih hA]
    simp

theorem cutChar_scheme (X w : Str) (c : Char) (h : c ∉ X) :
    cutChar (X ++ c :: w) c = (X, some w) := by
  rw [cutChar_append X (c :: w) c h, cutChar_cons_self]
  simp

theorem cutChar_recover (s : Str) (c : Char) :
    s = (cutChar s c).1 ++
      (match (cutChar s c).2 with | none => [] | some a => c :: a) := by
  induction s with
  | nil => rfl
  | cons a rest ih =>
    by_cases h : a = c
    · rw [h, cutChar_cons_self]
      simp
    · rw [cutChar_cons_of_ne a rest c h]
      show a :: rest = a :: ((cutChar rest c).1 ++ _)
      rw [← ih]

theorem schemeTailChar_of_alpha {c : Char}
    (h : ('a' ≤ c ∧ c ≤ 'z') ∨ ('A' ≤ c ∧ c ≤ 'Z')) : schemeTailChar c = true := by
  unfold schemeTailChar
  rw [Bool.or_eq_true]
  exact Or.inl (by simpa using h)

theorem schemeTailChar_of_digit {c : Char}
    (h : ('0' ≤ c ∧ c ≤ '9') ∨ c = '+' ∨ c = '-' ∨ c = '.') :
    schemeTailChar c = true := by
  unfold schemeTailChar
  rw [Bool.or_eq_true]
  exact Or.inr (by simpa using h)

theorem schemeOKB_append_tail {p : Str} {c : Char} (hp : schemeOKB p = true)
    (hc : schemeTailChar c = true) : schemeOKB (p ++ [c]) = true := by
  cases p with
  | nil => exact absurd hp (by decide)
  | cons c0 t =>
    unfold schemeOKB at hp ⊢
    rw [Bool.and_eq_true] at hp
    rw [show (c0 :: t) ++ [c] = c0 :: (t ++ [c]) from rfl, Bool.and_eq_true,
      List.all_append]
    exact ⟨hp.1, by rw [hp.2]; simpa using hc⟩

theorem schemeOKB_singleton {c : Char}
    (h : ('a' ≤ c ∧ c ≤ 'z') ∨ ('A' ≤ c ∧ c ≤ 'Z')) : schemeOKB [c] = true := by
  unfold schemeOKB schemeHeadChar
  simp [h]

theorem getSchemeAux_run (orig w : Str) :
    ∀ (t : Str) (i : Nat),
      orig = orig.take i ++ t ++ ':' :: w →
      t.all schemeTailChar = true →
      (i = 0 → ∃ c rest, t = c :: rest ∧ schemeHeadChar c = true) →
      getSchemeAux orig (t ++ ':' :: w) i =
        .ok (orig.take (i + t.length), orig.drop (i + t.length + 1)) := by
  intro t
  induction t with
  | nil =>
    intro i horig hall h0
    have hi0 : i ≠ 0 := by
      intro hi
      obtain ⟨c, rest, hcr, _⟩ := h0 hi
      exact List.noConfusion hcr
    show getSchemeAux orig (':' :: w) i = _
    simp only [getSchemeAux]
    rw [if_neg (by decide), if_neg (by decide), if_pos trivial, if_neg hi0]
    simp
  | cons c t' ih =>
    intro i horig hall h0
    rw [List.all_cons, Bool.and_eq_true] at hall
    have horig' : orig = orig.take i ++ c :: (t' ++ ':' :: w) := by
      simpa using horig
    have hlentake : (orig.take i).length = i := by
      have hle : i ≤ orig.length := by
        by_contra hgt
        have h1 := congrArg List.length horig'
        simp only [List.length_append, List.length_take, List.length_cons] at h1
        omega
      simp [List.length_take, Nat.min_eq_left hle]
    have hgetc : orig.get? i = some c := by
      conv_lhs => rw [horig']
      rw [List.get?_append_right (by omega), hlentake, Nat.sub_self]
      rfl
    have hgetc2 : orig[i]? = some c := by
      rw [← List.get?_eq_getElem?]
      exact hgetc
    have htake' : orig.take (i + 1) = orig.take i ++ [c] := by
      rw [List.take_succ, hgetc2]
      rfl
    have horig2 : orig = orig.take (i + 1) ++ t' ++ ':' :: w := by
      rw [htake']
      conv_lhs => rw [horig']
      simp
    have hrec : getSchemeAux orig (t' ++ ':' :: w) (i + 1) =
        .ok (orig.take (i + 1 + t'.length), orig.drop (i + 1 + t'.length + 1)) := by
      apply ih (i + 1) horig2 hall.2
      intro hcontra
      exact absurd hcontra (by omega)
    have harith : i + (c :: t').length = i + 1 + t'.length := by
      simp [List.length_cons]
      omega
    show getSchemeAux orig (c :: (t' ++ ':' :: w)) i = _
    simp only [getSchemeAux]
    rw [harith]
    by_cases hac : ('a' ≤ c ∧ c ≤ 'z') ∨ ('A' ≤ c ∧ c ≤ 'Z')
    · rw [if_pos hac]
      exact hrec
    · have hdg : ('0' ≤ c ∧ c ≤ '9') ∨ c = '+' ∨ c = '-' ∨ c = '.' := by
        have := hall.1
        unfold schemeTailChar at this
        rw [Bool.or_eq_true] at this
        rcases this with h1 | h2
        · exact absurd (by simpa using h1) hac
        · simpa using h2
      have hi0 : i ≠ 0 := by
        intro hi
        obtain ⟨c2, rest2, hcr, hhead⟩ := h0 hi
        have hc2 : c2 = c := by
          have := congrArg (fun l => l.head?) hcr
          simpa using this.symm
        unfold schemeHeadChar at hhead
        rw [hc2] at hhead
        exact hac (by simpa using hhead)
      rw [if_neg hac, if_pos hdg, if_neg hi0]
      exact hrec

theorem getScheme_append (X w : Str) (h : schemeOKB X = true) :
    getScheme (X ++ ':' :: w) = .ok (X, w) := by
  unfold getScheme
  obtain ⟨c, rest, hX⟩ : ∃ c rest, X = c :: rest := by
    cases X with
    | nil => exact absurd h (by decide)
    | cons c rest => exact ⟨c, rest, rfl⟩
  have hhead : schemeHeadChar c = true := by
    rw [hX] at h
    simp only [schemeOKB, Bool.and_eq_true] at h
    exact h.1
  have hrun := getSchemeAux_run (X ++ ':' :: w) w X 0 (by simp)
    (schemeOKB_all h) (fun _ => ⟨c, rest, hX, hhead⟩)
  rw [hrun]
  have ht : (X ++ ':' :: w).take (0 + X.length) = X := by
    rw [Nat.zero_add]
    exact List.take_left X (':' :: w)
  have hd : (X ++ ':' :: w).drop (0 + X.length + 1) = w := by
    have h1 : (X ++ ':' :: w).drop X.length = ':' :: w := List.drop_left X _
    have h2 : ((X ++ ':' :: w).drop X.length).drop 1 =
        (X ++ ':' :: w).drop (X.length + 1) := List.drop_drop 1 X.length _
    rw [h1] at h2
    rw [Nat.zero_add, ← h2]
    rfl
  rw [ht, hd]

theorem getSchemeAux_inv :
    ∀ (s : Str) (orig : Str) (i : Nat),
      orig.drop i = s →
      (i ≠ 0 → schemeOKB (orig.take i) = true) →
      ∀ sch rest, getSchemeAux orig s i = .ok (sch, rest) → sch ≠ [] →
      schemeOKB sch = true ∧ orig = sch ++ ':' :: rest := by
  intro s
  induction s with
  | nil =>
    intro orig i hdrop hinv sch rest h hne
    simp only [getSchemeAux] at h
    have h2 := Except.ok.inj h
    exact absurd (congrArg Prod.fst h2).symm hne
  | cons c s' ih =>
    intro orig i hdrop hinv sch rest h hne
    have hgetc : orig.get? i = some c := by
      have h1 : (orig.drop i).get? 0 = some c := by
        rw [hdrop]
        rfl
      rw [List.get?_drop, Nat.add_zero] at h1
      exact h1
    have hdrop' : orig.drop (i + 1) = s' := by
      have h1 : (orig.drop i).drop 1 = s' := by
        rw [hdrop]
        rfl
      rw [List.drop_drop 1 i orig] at h1
      exact h1
    have hgetc2 : orig[i]? = some c := by
      rw [← List.get?_eq_getElem?]
      exact hgetc
    have htake' : orig.take (i + 1) = orig.take i ++ [c] := by
      rw [List.take_succ, hgetc2]
      rfl
    simp only [getSchemeAux] at h
    by_cases hac : ('a' ≤ c ∧ c ≤ 'z') ∨ ('A' ≤ c ∧ c ≤ 'Z')
    · rw [if_pos hac] at h
      refine ih orig (i + 1) hdrop' ?_ sch rest h hne
      intro _
      rw [htake']
      by_cases hi : i = 0
      · rw [hi]
        show schemeOKB (orig.take 0 ++ [c]) = true
        rw [List.take_zero, List.nil_append]
        exact schemeOKB_singleton hac
      · exact schemeOKB_append_tail (hinv hi) (schemeTailChar_of_alpha hac)
    · rw [if_neg hac] at h
      by_cases hdg : ('0' ≤ c ∧ c ≤ '9') ∨ c = '+' ∨ c = '-' ∨ c = '.'
      · rw [if_pos hdg] at h
        by_cases hi : i = 0
        · rw [if_pos hi] at h
          have h2 := Except.ok.inj h
          exact absurd (congrArg Prod.fst h2).symm hne
        · rw [if_neg hi] at h
          refine ih orig (i + 1) hdrop' ?_ sch rest h hne
          intro _
          rw [htake']
          exact schemeOKB_append_tail (hinv hi) (schemeTailChar_of_digit hdg)
      · rw [if_neg hdg] at h
        by_cases hcol : c = ':'
        · rw [if_pos hcol] at h
          by_cases hi : i = 0
          · rw [if_pos hi] at h
            exact absurd h (by simp)
          · rw [if_neg hi] at h
            have h2 := Except.ok.inj h
            have hsch : orig.take i = sch := congrArg Prod.fst h2
            have hrest : orig.drop (i + 1) = rest := congrArg Prod.snd h2
            refine ⟨hsch ▸ hinv hi, ?_⟩
            conv_lhs => rw [← List.take_append_drop i orig]
            rw [hdrop, hsch, ← hrest, hdrop', hcol]
        · rw [if_neg hcol] at h
          have h2 := Except.ok.inj h
          exact absurd (congrArg Prod.fst h2).symm hne

theorem getScheme_inv (rawURL sch rest : Str)
    (h : getScheme rawURL = .ok (sch, rest)) (hne : sch ≠ []) :
    schemeOKB sch = true ∧ rawURL = sch ++ ':' :: rest :=
  getSchemeAux_inv rawURL rawURL 0 (by rw [List.drop_zero])
    (fun hi => absurd rfl hi) sch rest h hne

theorem setPath_fields (u : GoURL) (p : Str) (u' : GoURL)
    (h : setPath u p = .ok u') : u'.opq = u.opq ∧ u'.scheme = u.scheme := by
  unfold setPath at h
  cases hu : unescape p .path with
  | error e => rw [hu] at h; exact Except.noConfusion h
  | ok path =>
    rw [hu] at h
    have := Except.ok.inj h
    rw [← this]
    exact ⟨rfl, rfl⟩

theorem setFragment_fields (u : GoURL) (f : Str) (u' : GoURL)
    (h : setFragment u f = .ok u') : u'.opq = u.opq ∧ u'.scheme = u.scheme := by
  unfold setFragment at h
  cases hu : unescape f .fragment with
  | error e => rw [hu] at h; exact Except.noConfusion h
  | ok frag =>
    rw [hu] at h
    have := Except.ok.inj h
    rw [← this]
    exact ⟨rfl, rfl⟩

theorem parseAuthorityPath_fields (base : GoURL) (rest : Str) (u' : GoURL)
    (h : parseAuthorityPath base rest = .ok u') :
    u'.opq = base.opq ∧ u'.scheme = base.scheme := by
  unfold parseAuthorityPath at h
  by_cases hc : (base.scheme ≠ [] ∨ ¬hasPfx rest (str "///") = true) ∧
      hasPfx rest (str "//") = true
  · rw [if_pos hc] at h
    revert h
    cases hix : indexOfChar (rest.drop 2) '/' with
    | some i =>
      simp only [hix]
      cases hpa : parseAuthority ((rest.drop 2).take i) with
      | error e => intro h; exact Except.noConfusion h
      | ok uh =>
        obtain ⟨user, host⟩ := uh
        intro h
        exact setPath_fields { base with user := user, host := host } _ _ h
    | none =>
      simp only [hix]
      cases hpa : parseAuthority (rest.drop 2) with
      | error e => intro h; exact Except.noConfusion h
      | ok uh =>
        obtain ⟨user, host⟩ := uh
        intro h
        exact setPath_fields { base with user := user, host := host } _ _ h
  · rw [if_neg hc] at h
    by_cases hb : base.scheme ≠ [] ∧ hasPfx rest (str "/") = true
    · rw [if_pos hb] at h
      exact setPath_fields { base with omitHost := true } _ _ h
    · rw [if_neg hb] at h
      exact setPath_fields base _ _ h

theorem splitQuery_slash (s : Str) :
    hasPfx (splitQuery ('/' :: s)).1 (str "/") = true := by
  unfold splitQuery
  by_cases hq : hasSfx ('/' :: s) (str "?") = true ∧
      ¬containsChar (('/' :: s).take (('/' :: s).length - 1)) '?' = true
  · rw [if_pos hq]
    cases s with
    | nil => exact absurd hq.1 (by decide)
    | cons a s' =>
      show hasPfx (('/' :: a :: s').take (s'.length + 2 - 1)) (str "/") = true
      rw [show s'.length + 2 - 1 = s'.length + 1 from rfl]
      rw [List.take_succ_cons]
      simp [hasPfx, str, List.isPrefixOf]
  · rw [if_neg hq]
    rw [cutChar_cons_of_ne '/' s '?' (by decide)]
    cases hc2 : (cutChar s '?').2 with
    | some a =>
      simp only [hc2]
      simp [hasPfx, str, List.isPrefixOf]
    | none =>
      simp only [hc2]
      simp [hasPfx, str, List.isPrefixOf]

theorem urlParseInner_scheme_opq (X W : Str) (u : GoURL) (hX : schemeOKB X = true)
    (h : urlParseInner (X ++ str "://" ++ W) = .ok u) : u.opq = [] := by
  have hshape : X ++ str "://" ++ W = X ++ ':' :: ('/' :: '/' :: W) := by
    rw [List.append_assoc]
    rfl
  rw [hshape] at h
  unfold urlParseInner at h
  by_cases hctl : containsCTLByte (X ++ ':' :: ('/' :: '/' :: W)) = true
  · rw [if_pos hctl] at h
    exact Except.noConfusion h
  · rw [if_neg hctl] at h
    have hnstar : ¬(X ++ ':' :: ('/' :: '/' :: W) = str "*") := by
      intro he
      have hlen := congrArg List.length he
      obtain ⟨c, t, hct⟩ : ∃ c t, X = c :: t := by
        cases X with
        | nil => exact absurd hX (by decide)
        | cons c t => exact ⟨c, t, rfl⟩
      rw [hct] at hlen
      simp only [List.length_append, List.length_cons, str] at hlen
      simp at hlen
      omega
    rw [if_neg hnstar] at h
    rw [show X ++ ':' :: ('/' :: '/' :: W) = X ++ ':' :: ('/' :: ('/' :: W))
      from rfl] at h
    simp only [getScheme_append X ('/' :: ('/' :: W)) hX] at h
    revert h
    cases hsp : splitQuery ('/' :: ('/' :: W)) with
    | mk r qf =>
      cases qf with
      | mk q fq =>
        simp only [hsp]
        have hslash := splitQuery_slash ('/' :: W)
        rw [hsp] at hslash
        simp only at hslash
        rw [if_neg (by simp [hslash])]
        intro h
        exact (parseAuthorityPath_fields _ _ _ h).1

theorem urlParse_scheme_opq (X W : Str) (v : GoURL) (hX : schemeOKB X = true)
    (h : urlParse (X ++ str "://" ++ W) = .ok v) : v.opq = [] := by
  unfold urlParse at h
  have hnot : '#' ∉ X ++ str "://" := by
    intro hm
    rcases List.mem_append.mp hm with h1 | h2
    · exact schemeOKB_not_mem hX (by decide) h1
    · revert h2
      decide
  have hcut := cutChar_append (X ++ str "://") W '#' hnot
  simp only [hcut] at h
  revert h
  cases hpi : urlParseInner ((X ++ str "://") ++ (cutChar W '#').1) with
  | error e => intro h; exact Except.noConfusion h
  | ok url =>
    have hopq : url.opq = [] := urlParseInner_scheme_opq X _ url hX hpi
    cases hfr : (cutChar W '#').2 with
    | none =>
      intro h
      have := Except.ok.inj h
      rw [← this]
      exact hopq
    | some f =>
      intro h
      have h2 : (if f = [] then Except.ok url else setFragment url f) =
          Except.ok v := h
      by_cases hf : f = []
      · rw [if_pos hf] at h2
        have := Except.ok.inj h2
        rw [← this]
        exact hopq
      · rw [if_neg hf] at h2
        rw [(setFragment_fields url f v h2).1]
        exact hopq

theorem containsChar_eq_false {s : Str} {c : Char} (h : c ∉ s) :
    containsChar s c = false := by
  unfold containsChar
  rw [List.contains_eq_any_beq, List.any_eq_false]
  intro x hx
  have hne : x ≠ c := fun he => h (he ▸ hx)
  simp [Ne.symm hne]

theorem preprocess_scheme (X Z : Str) (h : schemeOKB X = true) :
    ∃ Z2, preprocess (X ++ str "://" ++ Z) = X ++ str "://" ++ Z2 := by
  have hshape : X ++ str "://" ++ Z = X ++ ':' :: ('/' :: '/' :: Z) := by
    rw [List.append_assoc]
    rfl
  have hnc : ':' ∉ X := schemeOKB_not_mem h (by decide)
  have hns : '/' ∉ X := schemeOKB_not_mem h (by decide)
  have hcut : cutChar (X ++ ':' :: ('/' :: '/' :: Z)) ':' =
      (X, some ('/' :: '/' :: Z)) := cutChar_scheme X _ ':' hnc
  unfold preprocess
  rw [hshape]
  simp only [hcut]
  rw [if_neg (by simp [containsChar_eq_false hns])]
  rw [if_pos (by simp [hasPfx, str, List.isPrefixOf])]
  show ∃ Z2, (match cutChar (('/' :: '/' :: Z).drop 2) ':' with
    | (g2, some t1) =>
      match lastIndexOfChar ((cutChar t1 '\n').1) '@' with
      | some k =>
        X ++ str "://" ++ g2 ++ ':' ::
          (queryEscape (queryEscape (t1.take k)) ++ '@' :: t1.drop (k + 1))
      | none => X ++ ':' :: ('/' :: '/' :: Z)
    | (_, none) => X ++ ':' :: ('/' :: '/' :: Z)) = X ++ str "://" ++ Z2
  rw [show ('/' :: '/' :: Z).drop 2 = Z from rfl]
  cases hc2 : cutChar Z ':' with
  | mk g2 o =>
    cases o with
    | none =>
      exact ⟨Z, hshape.symm⟩
    | some t1 =>
      cases hli : lastIndexOfChar ((cutChar t1 '\n').1) '@' with
      | none =>
        simp only [hli]
        exact ⟨Z, hshape.symm⟩
      | some k =>
        simp only [hli]
        refine ⟨g2 ++ ':' ::
          (queryEscape (queryEscape (t1.take k)) ++ '@' :: t1.drop (k + 1)), ?_⟩
        simp [List.append_assoc]

theorem urlParseInner_scheme_inv (raw : Str) (url : GoURL)
    (h : urlParseInner raw = .ok url) (hs : url.scheme ≠ []) :
    ∃ sch rest0, getScheme raw = .ok (sch, rest0) ∧ url.scheme = toLower sch := by
  unfold urlParseInner at h
  by_cases hctl : containsCTLByte raw = true
  · rw [if_pos hctl] at h
    exact Except.noConfusion h
  · rw [if_neg hctl] at h
    by_cases hstar : raw = str "*"
    · rw [if_pos hstar] at h
      have := Except.ok.inj h
      rw [← this] at hs
      exact absurd rfl hs
    · rw [if_neg hstar] at h
      revert h
      cases hg : getScheme raw with
      | error e => intro h; exact Except.noConfusion h
      | ok p =>
        obtain ⟨sch, rest0⟩ := p
        refine fun h => ⟨sch, rest0, rfl, ?_⟩
        revert h
        cases hsp : splitQuery rest0 with
        | mk r qf =>
          cases qf with
          | mk q fq =>
            simp only [hsp]
            intro h
            by_cases hpfx : ¬hasPfx r (str "/") = true
            · rw [if_pos hpfx] at h
              by_cases hsch : toLower sch ≠ []
              · rw [if_pos hsch] at h
                rw [← Except.ok.inj h]
              · rw [if_neg hsch] at h
                by_cases hcol : containsChar (cutChar r '/').1 ':' = true
                · rw [if_pos hcol] at h
                  exact Except.noConfusion h
                · rw [if_neg hcol] at h
                  exact (parseAuthorityPath_fields _ _ _ h).2
            · rw [if_neg hpfx] at h
              exact (parseAuthorityPath_fields _ _ _ h).2

theorem urlParse_scheme_token (raw : Str) (u : GoURL)
    (h : urlParse raw = .ok u) (hs : u.scheme ≠ []) :
    schemeOKB (raw.take u.scheme.length) = true := by
  unfold urlParse at h
  revert h
  cases hcut : cutChar raw '#' with
  | mk before frag =>
    cases hpi : urlParseInner before with
    | error e =>
      simp only [hpi]
      intro h
      exact Except.noConfusion h
    | ok url =>
      simp only [hpi]
      intro h
      have hupres : u.scheme = url.scheme := by
        cases frag with
        | none =>
          rw [← Except.ok.inj h]
        | some f =>
          have h2 : (if f = [] then Except.ok url else setFragment url f) =
              Except.ok u := h
          by_cases hf : f = []
          · rw [if_pos hf] at h2
            rw [← Except.ok.inj h2]
          · rw [if_neg hf] at h2
            exact (setFragment_fields url f u h2).2
      have hsne : url.scheme ≠ [] := by
        rw [← hupres]
        exact hs
      obtain ⟨sch, rest0, hg, hsch⟩ := urlParseInner_scheme_inv before url hpi hsne
      have hne : sch ≠ [] := by
        intro he
        rw [he] at hsch
        exact hsne (hupres ▸ hsch)
      obtain ⟨hOK, hshape⟩ := getScheme_inv before sch rest0 hg hne
      have hlen : u.scheme.length = sch.length := by
        rw [hupres, hsch]
        unfold toLower
        exact List.length_map _ _
      obtain ⟨tail, hbefore⟩ : ∃ tail, raw = before ++ tail := by
        have hr := cutChar_recover raw '#'
        rw [hcut] at hr
        exact ⟨_, hr⟩
      have htake : raw.take sch.length = sch := by
        rw [hbefore, hshape, List.append_assoc]
        exact List.take_left sch _
      rw [hlen, htake]
      exact hOK

theorem decodePassword_fields (v0 v : GoURL) (h : decodePassword v0 = .ok v) :
    v.scheme = v0.scheme ∧ v.opq = v0.opq := by
  unfold decodePassword at h
  cases hui : v0.user with
  | none =>
    simp only [hui] at h
    rw [← Except.ok.inj h]
    exact ⟨rfl, rfl⟩
  | some ui =>
    simp only [hui] at h
    by_cases hps : ui.passwordSet = true
    · rw [if_pos hps] at h
      cases hq1 : queryUnescape ui.password with
      | error e =>
        simp only [hq1] at h
        exact Except.noConfusion h
      | ok p1 =>
        simp only [hq1] at h
        cases hq2 : queryUnescape p1 with
        | error e =>
          simp only [hq2] at h
          exact Except.noConfusion h
        | ok p2 =>
          simp only [hq2] at h
          rw [← Except.ok.inj h]
          exact ⟨rfl, rfl⟩
    · rw [if_neg hps] at h
      rw [← Except.ok.inj h]
      exact ⟨rfl, rfl⟩

theorem splitTransport_fields (urlstr : Str) (v : GoURL) :
    (splitTransport urlstr v).1.originalScheme = urlstr.take v.scheme.length ∧
    (splitTransport urlstr v).1.url.opq = v.opq := by
  simp only [splitTransport]
  cases hix : indexOfChar v.scheme '+' with
  | some i =>
    simp only [hix]
    exact ⟨trivial, trivial⟩
  | none =>
    simp only [hix]
    exact ⟨trivial, trivial⟩

theorem runGen_ne_reentered (g : GenKind) (fs : FS) (u : URL) :
    runGen g fs u ≠ .error .reentered := by
  cases g with
  | postgres =>
    show genPostgres fs u ≠ _
    unfold genPostgres
    by_cases hh : hostnameOf u.url = str "."
    · rw [if_pos hh]
      simp
    · rw [if_neg hh]
      simp
  | mysql =>
    show genMySQL fs u ≠ _
    unfold genMySQL
    simp
  | sqlserver =>
    show genSQLServer fs u ≠ _
    unfold genSQLServer
    simp
  | oracle =>
    show genOracle fs u ≠ _
    unfold genOracle
    simp
  | opq =>
    show genOpaque fs u ≠ _
    unfold genOpaque
    simp
  | schemeGen name =>
    show genSchemeGen name fs u ≠ _
    unfold genSchemeGen
    simp

theorem parseF_succ (fs : FS) (k : Nat) (s : Str) :
    parseF fs (k + 1) s = parseBody fs (parseF fs k) s := rfl

theorem parseBody_schemeArg (fs : FS) (r1 r2 : Str → Except Err URL) (X Z : Str)
    (hX : schemeOKB X = true) :
    parseBody fs r1 (X ++ str "://" ++ Z) = parseBody fs r2 (X ++ str "://" ++ Z) := by
  obtain ⟨Z2, hpre⟩ := preprocess_scheme X Z hX
  simp only [parseBody]
  rw [hpre]
  cases hup : urlParse (X ++ str "://" ++ Z2) with
  | error e => simp only [hup]
  | ok v0 =>
    simp only [hup]
    have hopq0 : v0.opq = [] := urlParse_scheme_opq X Z2 v0 hX hup
    cases hdp : decodePassword v0 with
    | error e => simp only [hdp]
    | ok v =>
      simp only [hdp]
      by_cases hsch : v.scheme = []
      · rw [if_pos hsch, if_pos hsch]
      · rw [if_neg hsch, if_neg hsch]
        have hvopq : v.opq = [] := by
          rw [(decodePassword_fields v0 v hdp).2]
          exact hopq0
        have hu1opq : (splitTransport (X ++ str "://" ++ Z2) v).1.url.opq = [] := by
          rw [(splitTransport_fields _ v).2]
          exact hvopq
        cases hls : lookupScheme schemeMap
            (splitTransport (X ++ str "://" ++ Z2) v).1.url.scheme with
        | none => simp only [hls]
        | some scheme =>
          simp only [hls]
          have hcnot : ¬(¬scheme.opq = true ∧
              (splitTransport (X ++ str "://" ++ Z2) v).1.url.opq ≠ []) :=
            fun hcond => hcond.2 hu1opq
          rw [if_neg hcnot, if_neg hcnot]

theorem parseBody_ext (fs : FS) (r1 r2 : Str → Except Err URL) (s : Str)
    (h : ∀ X Z, schemeOKB X = true →
      r1 (X ++ str "://" ++ Z) = r2 (X ++ str "://" ++ Z)) :
    parseBody fs r1 s = parseBody fs r2 s := by
  simp only [parseBody]
  cases hup : urlParse (preprocess s) with
  | error e => simp only [hup]
  | ok v0 =>
    simp only [hup]
    cases hdp : decodePassword v0 with
    | error e => simp only [hdp]
    | ok v =>
      simp only [hdp]
      by_cases hsch : v.scheme = []
      · rw [if_pos hsch, if_pos hsch]
      · rw [if_neg hsch, if_neg hsch]
        cases hls : lookupScheme schemeMap
            (splitTransport (preprocess s) v).1.url.scheme with
        | none => simp only [hls]
        | some scheme =>
          simp only [hls]
          by_cases hcond : ¬scheme.opq = true ∧
              (splitTransport (preprocess s) v).1.url.opq ≠ []
          · rw [if_pos hcond, if_pos hcond]
            have hvne : v0.scheme ≠ [] := by
              rw [(decodePassword_fields v0 v hdp).1] at hsch
              exact hsch
            have htok : schemeOKB ((preprocess s).take v0.scheme.length) = true :=
              urlParse_scheme_token (preprocess s) v0 hup hvne
            have horig : (splitTransport (preprocess s) v).1.originalScheme =
                (preprocess s).take v0.scheme.length := by
              rw [(splitTransport_fields _ v).1, (decodePassword_fields v0 v hdp).1]
            have hOK : schemeOKB (splitTransport (preprocess s) v).1.originalScheme
                = true := by
              rw [horig]
              exact htok
            have hre : ∀ (C D E : Str),
                (splitTransport (preprocess s) v).1.originalScheme ++ str "://" ++
                  C ++ D ++ E =
                (splitTransport (preprocess s) v).1.originalScheme ++ str "://" ++
                  (C ++ D ++ E) := by
              intro C D E
              simp [List.append_assoc]
            rw [hre]
            exact h _ _ hOK
          · rw [if_neg hcond, if_neg hcond]

theorem decodePassword_error_shape (v0 : GoURL) (e : Err)
    (h : decodePassword v0 = .error e) : ∃ ue, e = .passwordDecode ue := by
  unfold decodePassword at h
  cases hui : v0.user with
  | none =>
    simp only [hui] at h
    exact Except.noConfusion h
  | some ui =>
    simp only [hui] at h
    by_cases hps : ui.passwordSet = true
    · rw [if_pos hps] at h
      cases hq1 : queryUnescape ui.password with
      | error e1 =>
        simp only [hq1] at h
        exact ⟨e1, (Except.error.inj h).symm⟩
      | ok p1 =>
        simp only [hq1] at h
        cases hq2 : queryUnescape p1 with
        | error e2 =>
          simp only [hq2] at h
          exact ⟨e2, (Except.error.inj h).symm⟩
        | ok p2 =>
          simp only [hq2] at h
          exact Except.noConfusion h
    · rw [if_neg hps] at h
      exact Except.noConfusion h

theorem parseBody_reent (fs : FS) (r : Str → Except Err URL) (s : Str)
    (h : ∀ X Z, schemeOKB X = true →
      r (X ++ str "://" ++ Z) ≠ .error .reentered) :
    parseBody fs r s ≠ .error .reentered := by
  simp only [parseBody]
  cases hup : urlParse (preprocess s) with
  | error e => simp
  | ok v0 =>
    simp only [hup]
    cases hdp : decodePassword v0 with
    | error e =>
      simp only [hdp]
      intro hc
      have he := Except.error.inj hc
      obtain ⟨ue, hpe⟩ := decodePassword_error_shape v0 e hdp
      rw [he] at hpe
      exact Err.noConfusion hpe
    | ok v =>
      simp only [hdp]
      by_cases hsch : v.scheme = []
      · rw [if_pos hsch]
        simp
      · rw [if_neg hsch]
        cases hls : lookupScheme schemeMap
            (splitTransport (preprocess s) v).1.url.scheme with
        | none =>
          simp only [hls]
          simp
        | some scheme =>
          simp only [hls]
          by_cases hcond : ¬scheme.opq = true ∧
              (splitTransport (preprocess s) v).1.url.opq ≠ []
          · rw [if_pos hcond]
            have hvne : v0.scheme ≠ [] := by
              rw [(decodePassword_fields v0 v hdp).1] at hsch
              exact hsch
            have htok : schemeOKB ((preprocess s).take v0.scheme.length) = true :=
              urlParse_scheme_token (preprocess s) v0 hup hvne
            have hOK : schemeOKB (splitTransport (preprocess s) v).1.originalScheme
                = true := by
              rw [(splitTransport_fields _ v).1, (decodePassword_fields v0 v hdp).1]
              exact htok
            have hre : ∀ (C D E : Str),
                (splitTransport (preprocess s) v).1.originalScheme ++ str "://" ++
                  C ++ D ++ E =
                (splitTransport (preprocess s) v).1.originalScheme ++ str "://" ++
                  (C ++ D ++ E) := by
              intro C D E
              simp [List.append_assoc]
            rw [hre]
            exact h _ _ hOK
          · rw [if_neg hcond]
            by_cases hvt : ¬validateTransport scheme.transport
                (splitTransport (preprocess s) v).2
                (applyOpaqueUnix scheme (splitTransport (preprocess s) v).1).transport
                = true
            · rw [if_pos hvt]
              simp
            · rw [if_neg hvt]
              cases hrg : runGen (scheme.gen.getD (.schemeGen scheme.driver)) fs
                  (if scheme.override ≠ [] then
                    { applyOpaqueUnix scheme (splitTransport (preprocess s) v).1 with
                      driver := scheme.override, unaliasedDriver := scheme.driver }
                  else
                    { applyOpaqueUnix scheme (splitTransport (preprocess s) v).1 with
                      driver := scheme.driver, unaliasedDriver := scheme.driver }) with
              | error e =>
                simp only [hrg]
                intro hc
                have he := Except.error.inj hc
                exact runGen_ne_reentered _ fs _ (he ▸ hrg)
              | ok dg =>
                simp only [hrg]
                simp

theorem parseBody_schemeArg_reent (fs : FS) (r : Str → Except Err URL) (X Z : Str)
    (hX : schemeOKB X = true) :
    parseBody fs r (X ++ str "://" ++ Z) ≠ .error .reentered := by
  obtain ⟨Z2, hpre⟩ := preprocess_scheme X Z hX
  simp only [parseBody]
  rw [hpre]
  cases hup : urlParse (X ++ str "://" ++ Z2) with
  | error e => simp
  | ok v0 =>
    simp only [hup]
    have hopq0 : v0.opq = [] := urlParse_scheme_opq X Z2 v0 hX hup
    cases hdp : decodePassword v0 with
    | error e =>
      simp only [hdp]
      intro hc
      have he := Except.error.inj hc
      obtain ⟨ue, hpe⟩ := decodePassword_error_shape v0 e hdp
      rw [he] at hpe
      exact Err.noConfusion hpe
    | ok v =>
      simp only [hdp]
      by_cases hsch : v.scheme = []
      · rw [if_pos hsch]
        simp
      · rw [if_neg hsch]
        have hvopq : v.opq = [] := by
          rw [(decodePassword_fields v0 v hdp).2]
          exact hopq0
        have hu1opq : (splitTransport (X ++ str "://" ++ Z2) v).1.url.opq = [] := by
          rw [(splitTransport_fields _ v).2]
          exact hvopq
        cases hls : lookupScheme schemeMap
            (splitTransport (X ++ str "://" ++ Z2) v).1.url.scheme with
        | none =>
          simp only [hls]
          simp
        | some scheme =>
          simp only [hls]
          have hcnot : ¬(¬scheme.opq = true ∧
              (splitTransport (X ++ str "://" ++ Z2) v).1.url.opq ≠ []) :=
            fun hcond => hcond.2 hu1opq
          rw [if_neg hcnot]
          by_cases hvt : ¬validateTransport scheme.transport
              (splitTransport (X ++ str "://" ++ Z2) v).2
              (applyOpaqueUnix scheme
                (splitTransport (X ++ str "://" ++ Z2) v).1).transport = true
          · rw [if_pos hvt]
            simp
          · rw [if_neg hvt]
            cases hrg : runGen (scheme.gen.getD (.schemeGen scheme.driver)) fs
                (if scheme.override ≠ [] then
                  { applyOpaqueUnix scheme
                      (splitTransport (X ++ str "://" ++ Z2) v).1 with
                    driver := scheme.override, unaliasedDriver := scheme.driver }
                else
                  { applyOpaqueUnix scheme
                      (splitTransport (X ++ str "://" ++ Z2) v).1 with
                    driver := scheme.driver, unaliasedDriver := scheme.driver }) with
            | error e =>
              simp only [hrg]
              intro hc
              have he := Except.error.inj hc
              exact runGen_ne_reentered _ fs _ (he ▸ hrg)
            | ok dg =>
              simp only [hrg]
              simp

/-- C3: the opaque-reconciliation re-entry of `Parse` is hard-bounded to
one: (1) `Parse` (fuel 2) never hits the re-entry fuel marker, so the
rewrite-and-reparse step runs at most once and `Parse` terminates with an
ordinary result for every input; (2) giving the self-call any more fuel
never changes the result; (3) the step is idempotent on its own output:
re-decomposing the rewritten `scheme://opaque[?query][#fragment]` string
always yields an empty opaque component, so re-applying the reconciliation
to its own output is a no-op. -/
theorem c3_opaque_reconciliation_bounded :
    (∀ (fs : FS) (s : Str), ParseE fs s ≠ .error .reentered) ∧
    (∀ (fs : FS) (n : Nat) (s : Str), parseF fs (n + 2) s = parseF fs 2 s) ∧
    (∀ (X Z : Str) (v : GoURL), schemeOKB X = true →
      urlParse (preprocess (X ++ str "://" ++ Z)) = .ok v → v.opq = []) := by
  have hnorec1 : ∀ (fs : FS) (k : Nat) (X Z : Str), schemeOKB X = true →
      parseF fs (k + 1) (X ++ str "://" ++ Z) =
        parseF fs 1 (X ++ str "://" ++ Z) := by
    intro fs k X Z hX
    show parseF fs (k + 1) (X ++ str "://" ++ Z) =
      parseF fs (0 + 1) (X ++ str "://" ++ Z)
    rw [parseF_succ fs k, parseF_succ fs 0]
    exact parseBody_schemeArg fs (parseF fs k) (parseF fs 0) X Z hX
  refine ⟨?_, ?_, ?_⟩
  · intro fs s
    show parseF fs (1 + 1) s ≠ .error .reentered
    rw [parseF_succ fs 1 s]
    apply parseBody_reent
    intro X Z hX
    show parseF fs (0 + 1) (X ++ str "://" ++ Z) ≠ .error .reentered
    rw [parseF_succ fs 0]
    exact parseBody_schemeArg_reent fs (parseF fs 0) X Z hX
  · intro fs n s
    show parseF fs ((n + 1) + 1) s = parseF fs (1 + 1) s
    rw [parseF_succ fs (n + 1) s, parseF_succ fs 1 s]
    apply parseBody_ext
    intro X Z hX
    exact hnorec1 fs n X Z hX
  · intro X Z v hX hup
    obtain ⟨Z2, hpre⟩ := preprocess_scheme X Z hX
    rw [hpre] at hup
    exact urlParse_scheme_opq X Z2 v hX hup

/-- C3 witness: the third conjunct applied to the concrete rewritten input
`pg://host/db` — the re-decomposition yields an empty opaque component. -/
theorem c3_witness :
    ((urlParse (preprocess (str "pg" ++ str "://" ++
      str "host/db"))).toOption.getD {}).opq = [] :=
  c3_opaque_reconciliation_bounded.2.2 (str "pg") (str "host/db")
    ((urlParse (preprocess (str "pg" ++ str "://" ++ str "host/db"))).toOption.getD {})
    (by decide) (by decide)
